import Mathlib

/-!
# Verification of the spacing-token fix scripts

Shallow embedding of the two CSS-repair scripts
(`fix_spacing_fallbacks.py` and `fix_spacing_syntax.py`).

Text is modelled as `List Char`.  Each `re.sub` call is embedded as a
left-to-right scanner (`runSub`) over a matcher for the given pattern.
The matchers are deterministic renderings of the Python regexes: every
greedy quantifier in the patterns is followed by a literal character that
is outside the quantified class (`[a-z0-9]+` before `,` or `)`, `\s*`
before `v`, `[a-z]*` before `;`, final `[a-z]+` at pattern end), so the
greedy match is forced to the maximal run and no backtracking can give a
different result.  The single exception is pattern 3 of the syntax
script, where `[a-z]+` is followed by `\s*var\(`, and `v` is itself a
lowercase letter; there the matcher `tryMid` replays the engine's
backtracking, trying the longest letter run first.
-/

set_option maxRecDepth 8192

namespace SpacingFix

/-- The regex class `[a-z0-9]` (token characters). -/
def isTok (c : Char) : Bool := c.isLower || c.isDigit

/-- The regex class `[a-z]` (lowercase artifact letters). -/
def isLow (c : Char) : Bool := c.isLower

/-- Python's `\s` on `str` patterns: the Unicode whitespace set used by
`re` (`[ \t\n\r\f\v]`, the C1 separators, NEL, NBSP and the Unicode
space block). -/
def isSpc (c : Char) : Bool :=
  c == ' ' || c == '\t' || c == '\n' || c == '\r' ||
  c.toNat == 11 || c.toNat == 12 ||
  c.toNat == 28 || c.toNat == 29 || c.toNat == 30 || c.toNat == 31 ||
  c.toNat == 133 || c.toNat == 160 || c.toNat == 0x1680 ||
  (decide (0x2000 ≤ c.toNat) && decide (c.toNat ≤ 0x200a)) ||
  c.toNat == 0x2028 || c.toNat == 0x2029 ||
  c.toNat == 0x202f || c.toNat == 0x205f || c.toNat == 0x3000

/-- The literal `var(--spacing-` that opens every pattern. -/
def pre : List Char :=
  ['v', 'a', 'r', '(', '-', '-', 's', 'p', 'a', 'c', 'i', 'n', 'g', '-']

/-- A clean reference `var(--spacing-<tok>)`; this is also the
replacement template of rule A and of syntax rule 1. -/
def refTok (tok : List Char) : List Char := pre ++ tok ++ [')']

/-- Consume an exact literal from the head of the text. -/
def dropLit : List Char → List Char → Option (List Char)
  | [], s => some s
  | _ :: _, [] => none
  | l :: ls, c :: cs => if c = l then dropLit ls cs else none

/-- Matcher for rule A of `fix_spacing_fallbacks.py`:
`var\(--spacing-([a-z0-9]+),\s*var\(--spacing-\1\)`.
Returns the captured token and the text after the match. -/
def matchA (s : List Char) : Option (List Char × List Char) :=
  match dropLit pre s with
  | none => none
  | some s1 =>
    if s1.takeWhile isTok = [] then none else
    match dropLit [','] (s1.dropWhile isTok) with
    | none => none
    | some s3 =>
      match dropLit pre (s3.dropWhile isSpc) with
      | none => none
      | some s5 =>
        match dropLit (s1.takeWhile isTok) s5 with
        | none => none
        | some s6 =>
          match dropLit [')'] s6 with
          | none => none
          | some s7 => some (s1.takeWhile isTok, s7)

/-- Matcher for syntax rule 1:
`var\(--spacing-([a-z0-9]+)\)([a-z]+)` (the second group is dropped by
the replacement, so only the token is returned). -/
def matchB1 (s : List Char) : Option (List Char × List Char) :=
  match dropLit pre s with
  | none => none
  | some s1 =>
    if s1.takeWhile isTok = [] then none else
    match dropLit [')'] (s1.dropWhile isTok) with
    | none => none
    | some s2 =>
      if s2.takeWhile isLow = [] then none
      else some (s1.takeWhile isTok, s2.dropWhile isLow)

/-- Matcher for syntax rule 2:
`var\(--spacing-([a-z0-9]+),\s*var\(--spacing-\1\)([a-z]*);`. -/
def matchB2 (s : List Char) : Option (List Char × List Char) :=
  match dropLit pre s with
  | none => none
  | some s1 =>
    if s1.takeWhile isTok = [] then none else
    match dropLit [','] (s1.dropWhile isTok) with
    | none => none
    | some s3 =>
      match dropLit pre (s3.dropWhile isSpc) with
      | none => none
      | some s5 =>
        match dropLit (s1.takeWhile isTok) s5 with
        | none => none
        | some s6 =>
          match dropLit [')'] s6 with
          | none => none
          | some s7 =>
            match dropLit [';'] (s7.dropWhile isLow) with
            | none => none
            | some s8 => some (s1.takeWhile isTok, s8)

/-- The property-name alternation of syntax rule 3, in source order. -/
def propNames : List (List Char) :=
  ["padding".toList, "margin".toList, "gap".toList, "top".toList,
   "right".toList, "bottom".toList, "left".toList,
   "border-radius".toList, "width".toList, "height".toList]

def matchPropAux : List (List Char) → List Char → Option (List Char × List Char)
  | [], _ => none
  | n :: ns, s =>
    match dropLit n s with
    | some r => some (n, r)
    | none => matchPropAux ns s

/-- Match one of the ten property names literally (no two are prefixes
of one another, so alternation order cannot matter). -/
def matchProp (s : List Char) : Option (List Char × List Char) :=
  matchPropAux propNames s

/-- Backtracking loop for the middle `[a-z]+\s*` of syntax rule 3: try
consuming `j` letters (longest first, as the greedy engine does), then
maximal whitespace, then the tail `var\(--spacing-([a-z0-9]+)\)[a-z]+`,
which is exactly the shape `matchB1` accepts. -/
def tryMid (s5 : List Char) : Nat → Option (List Char × List Char)
  | 0 => none
  | j + 1 =>
    match matchB1 ((s5.drop (j + 1)).dropWhile isSpc) with
    | some r => some r
    | none => tryMid s5 j

/-- Matcher for syntax rule 3:
`((?:padding|…|height):\s*)var\(--spacing-([a-z0-9]+)\)[a-z]+\s*var\(--spacing-([a-z0-9]+)\)[a-z]+`.
Returns (group 1, token 2, token 3) and the remaining text. -/
def matchB3 (s : List Char) : Option ((List Char × List Char × List Char) × List Char) :=
  match matchProp s with
  | none => none
  | some (nm, s1) =>
    match dropLit [':'] s1 with
    | none => none
    | some s2 =>
      match dropLit pre (s2.dropWhile isSpc) with
      | none => none
      | some s4 =>
        if s4.takeWhile isTok = [] then none else
        match dropLit [')'] (s4.dropWhile isTok) with
        | none => none
        | some s5 =>
          match tryMid s5 (s5.takeWhile isLow).length with
          | none => none
          | some (tok3, rest) =>
            some ((nm ++ ':' :: s2.takeWhile isSpc, s4.takeWhile isTok, tok3), rest)

/-- Fuel-indexed `re.sub` scanner: try the matcher at each position from
left to right; on a match emit the replacement and resume after the
matched span (Python resumes at `match.end()`).  The fuel only serves
termination; `runSub` instantiates it with the text length. -/
def subF {α : Type} (mt : List Char → Option (α × List Char)) (rp : α → List Char) :
    Nat → List Char → List Char
  | 0, s => s
  | _ + 1, [] => []
  | n + 1, c :: cs =>
    match mt (c :: cs) with
    | some (tok, rest) => rp tok ++ subF mt rp n rest
    | none => c :: subF mt rp n cs

/-- `re.sub pattern replacement text`, for a matcher that always consumes
at least one character. -/
def runSub {α : Type} (mt : List Char → Option (α × List Char)) (rp : α → List Char)
    (s : List Char) : List Char :=
  subF mt rp s.length s

/-- Rule A of `fix_spacing_fallbacks.py`. -/
def ruleA (s : List Char) : List Char := runSub matchA refTok s

/-- Syntax rule 1 (trailing-letter stripper). -/
def ruleB1 (s : List Char) : List Char := runSub matchB1 refTok s

/-- Syntax rule 2 (fallback-with-suffix collapser); replacement
`var(--spacing-\1);`. -/
def ruleB2 (s : List Char) : List Char :=
  runSub matchB2 (fun tok => refTok tok ++ [';']) s

/-- Replacement of syntax rule 3: `\1var(--spacing-\2) var(--spacing-\3)`. -/
def replB3 (g : List Char × List Char × List Char) : List Char :=
  g.1 ++ refTok g.2.1 ++ ' ' :: refTok g.2.2

/-- Syntax rule 3 (dual-value detangler). -/
def ruleB3 (s : List Char) : List Char := runSub matchB3 replB3 s

/-- The full substitution engine of `fix_spacing_fallbacks.py`. -/
def fixSpacingFallbacks (s : List Char) : List Char := ruleA s

/-- The full three-rule chain of `fix_spacing_syntax.py`, each rule fed
the previous rule's output. -/
def fixSpacingSyntax (s : List Char) : List Char := ruleB3 (ruleB2 (ruleB1 s))

/-- Literal head test, used to phrase substring occurrence executably. -/
def isHeadOf : List Char → List Char → Bool
  | [], _ => true
  | _ :: _, [] => false
  | c :: cs, d :: ds => c == d && isHeadOf cs ds

/-- Executable substring occurrence test. -/
def occursIn (pat : List Char) : List Char → Bool
  | [] => isHeadOf pat []
  | d :: ds => isHeadOf pat (d :: ds) || occursIn pat ds

/-- `pre` minus its leading `v`. -/
def preTl : List Char :=
  ['a', 'r', '(', '-', '-', 's', 'p', 'a', 'c', 'i', 'n', 'g', '-']

/-- A "bad" occurrence: a clean spacing reference immediately followed by
a lowercase letter, i.e. exactly what syntax rules 1 and 3 look for. -/
def hasBad (t : List Char) : Prop :=
  ∃ u T c v, T ≠ [] ∧ (∀ x ∈ T, isTok x = true) ∧ isLow c = true ∧
    t = u ++ (pre ++ (T ++ ')' :: c :: v))

/-- The shape `var(--spacing-X, var(--spacing-Y)` with a final `)`,
as written in the spec's differing-token scenario. -/
def mixG (X Y : List Char) : List Char :=
  pre ++ (X ++ ',' :: (' ' :: (pre ++ (Y ++ [')']))))

/-- Does the matcher match at any position of the text? -/
def anyMatch {α : Type} (mt : List Char → Option (α × List Char)) : List Char → Bool
  | [] => false
  | c :: cs => (mt (c :: cs)).isSome || anyMatch mt cs

/-! ## The per-file loop: existence check, substitution, write-back, report -/

/-- One console line per file: `✅ Fixed`, `⚠️ No changes needed`, or
`❌ File not found`. -/
inductive Report where
  | fixed : String → Report
  | noChanges : String → Report
  | notFound : String → Report
deriving DecidableEq

def Report.isFixedR : Report → Bool
  | .fixed _ => true
  | _ => false

/-- One iteration of the `for file_path in files:` loop.  A missing path
is reported and skipped; otherwise the substitution engine runs and the
file is rewritten (full overwrite) exactly when the text changed.
Returns the new file system, the report line, and the increment to
`total_fixes`. -/
def processOne (fix : List Char → List Char) (fs : String → Option (List Char))
    (p : String) : (String → Option (List Char)) × Report × Nat :=
  match fs p with
  | none => (fs, Report.notFound p, 0)
  | some content =>
    if fix content ≠ content then
      (fun q => if q = p then some (fix content) else fs q, Report.fixed p, 1)
    else (fs, Report.noChanges p, 0)

structure RunResult where
  fs : String → Option (List Char)
  reports : List Report
  fixes : Nat

/-- The whole script run over its hard-coded path list. -/
def runScript (fix : List Char → List Char) :
    List String → (String → Option (List Char)) → RunResult
  | [], fs => ⟨fs, [], 0⟩
  | p :: ps, fs =>
    let st := processOne fix fs p
    let r := runScript fix ps st.1
    ⟨r.fs, st.2.1 :: r.reports, st.2.2 + r.fixes⟩

/-- The final console line `Total files fixed: X/Y`: fixed count over the
number of enumerated paths. -/
def summaryOf (fix : List Char → List Char) (paths : List String)
    (fs : String → Option (List Char)) : Nat × Nat :=
  ((runScript fix paths fs).fixes, paths.length)

/-- The hard-coded list of `fix_spacing_fallbacks.py`. -/
def problem_files : List String :=
  ["src/components/atoms/ConsoleInput/ConsoleInput.css",
   "src/components/atoms/ErrorBoundary/ErrorBoundary.module.css",
   "src/components/molecules/ConsoleHistory/ConsoleHistory.css",
   "src/components/organisms/CommandPalette/CommandPalette.css",
   "src/components/organisms/KeyboardHelp/KeyboardHelp.css"]

/-- The hard-coded list of `fix_spacing_syntax.py`. -/
def css_files : List String :=
  ["src/components/atoms/ConsoleInput/ConsoleInput.css",
   "src/components/atoms/ErrorBoundary/ErrorBoundary.module.css",
   "src/components/molecules/ConsoleAutocomplete/ConsoleAutocomplete.css",
   "src/components/molecules/ConsoleHistory/ConsoleHistory.css",
   "src/components/molecules/ResizableDivider/ResizableDivider.module.css",
   "src/components/molecules/RowSelector/RowSelector.module.css",
   "src/components/organisms/ColorPicker/ColorPicker.css",
   "src/components/organisms/CommandFooter/CommandFooter.css",
   "src/components/organisms/CommandPalette/CommandPalette.css",
   "src/components/organisms/Help/Help.css",
   "src/components/organisms/KeyboardHelp/KeyboardHelp.css",
   "src/components/organisms/LiveConsole/LiveConsole.css",
   "src/components/organisms/ProjectSelector/ProjectSelector.css",
   "src/components/organisms/QuickInput/QuickInput.css",
   "src/components/organisms/SongDataViewer/SongDataViewer.module.css",
   "src/components/organisms/TrackSettingsDialog/TrackSettingsDialog.module.css"]

/-! ## Concrete example texts used by the claim analyses -/

/-- Nested self-referential fallback: the outer fallback is itself a
self-referential fallback. -/
def exC1 : List Char := "var(--spacing-x, var(--spacing-x, var(--spacing-x))".toList

/-- The plain self-referential fallback form with token `x`. -/
def fallbackX : List Char := "var(--spacing-x, var(--spacing-x))".toList

/-- Nested self-referential fallback with token `y`. -/
def exC2A : List Char := "var(--spacing-y, var(--spacing-y, var(--spacing-y))".toList

/-- Nested malformed fallback ending in a semicolon. -/
def exC2B : List Char := "var(--spacing-x, var(--spacing-x, var(--spacing-x);".toList

/-- The spec's own worked example for syntax rule 3. -/
def exC3 : List Char := "padding: var(--spacing-a)padding var(--spacing-b)padding;".toList

/-- What rule 3 actually produces on `exC3`. -/
def outC3 : List Char := "padding: var(--spacing-a) var(--spacing-b);".toList

/-- What the spec says rule 3 produces on `exC3` (no semicolon). -/
def specC3 : List Char := "padding: var(--spacing-a) var(--spacing-b)".toList

/-- Two adjacent clean references, the second followed by a stray letter. -/
def exC4 : List Char := "var(--spacing-a)var(--spacing-b)x".toList

/-- What rule 1 actually produces on `exC4`. -/
def outC4 : List Char := "var(--spacing-a)(--spacing-b)x".toList

/-- The corrupted occurrence `var(--spacing-b)x` inside `exC4`. -/
def refWordC4 : List Char := "var(--spacing-b)x".toList

/-- The clean reference with token `b`. -/
def refC4 : List Char := "var(--spacing-b)".toList

/-- A clean reference directly followed by a malformed fallback. -/
def exC5 : List Char := "var(--spacing-a)var(--spacing-b, var(--spacing-b);".toList

/-- What the full syntax chain actually produces on `exC5`. -/
def outC5 : List Char := "var(--spacing-a)(--spacing-b, var(--spacing-b);".toList

/-- The malformed-fallback occurrence inside `exC5`. -/
def fallC5 : List Char := "var(--spacing-b, var(--spacing-b);".toList

/-- What `exC5` would become if its occurrence were collapsed in place. -/
def expC5 : List Char := "var(--spacing-a)var(--spacing-b);".toList

/-- Two directly adjacent well-formed references. -/
def exC10 : List Char := "var(--spacing-x)var(--spacing-y)".toList

/-- What rule 1 actually produces on `exC10`. -/
def outC10 : List Char := "var(--spacing-x)(--spacing-y)".toList

/-- The clean reference with token `y`. -/
def refC10 : List Char := "var(--spacing-y)".toList

/-! ## Basic toolkit -/

theorem dropLit_some : ∀ (l s r : List Char), dropLit l s = some r ↔ s = l ++ r
  | [], s, r => by simp [dropLit, eq_comm]
  | _ :: _, [], r => by simp [dropLit]
  | l :: ls, c :: cs, r => by
    by_cases h : c = l
    · subst h
      simp [dropLit, dropLit_some ls cs r]
    · simp [dropLit, h]

theorem dropLit_self (l r : List Char) : dropLit l (l ++ r) = some r :=
  (dropLit_some l (l ++ r) r).mpr rfl

theorem takeWhile_append_eq (p : Char → Bool) :
    ∀ (t : List Char), (∀ c ∈ t, p c = true) → ∀ (c₀ : Char) (r : List Char), p c₀ = false →
      (t ++ c₀ :: r).takeWhile p = t ∧ (t ++ c₀ :: r).dropWhile p = c₀ :: r
  | [], _, c₀, r, hc => by simp [List.takeWhile_cons, List.dropWhile_cons, hc]
  | a :: t, ht, c₀, r, hc => by
    have ha : p a = true := ht a (by simp)
    have ih := takeWhile_append_eq p t (fun c hcm => ht c (by simp [hcm])) c₀ r hc
    simp [List.takeWhile_cons, List.dropWhile_cons, ha, ih.1, ih.2]

theorem dropWhile_head_false (p : Char → Bool) :
    ∀ (l : List Char) (c : Char) (t : List Char), l.dropWhile p = c :: t → p c = false
  | [], c, t => by simp
  | a :: l, c, t => by
    by_cases h : p a
    · simp only [List.dropWhile_cons, h, if_true]
      exact dropWhile_head_false p l c t
    · simp only [List.dropWhile_cons, h, if_false, Bool.false_eq_true]
      intro he
      cases he
      simpa using h

theorem mem_takeWhile_true (p : Char → Bool) :
    ∀ (l : List Char) (c : Char), c ∈ l.takeWhile p → p c = true
  | [], c => by simp
  | a :: l, c => by
    by_cases h : p a
    · simp only [List.takeWhile_cons, h, if_true, List.mem_cons]
      rintro (rfl | hm)
      · exact h
      · exact mem_takeWhile_true p l c hm
    · simp [List.takeWhile_cons, h]

theorem length_dropWhile_le (p : Char → Bool) (l : List Char) :
    (l.dropWhile p).length ≤ l.length :=
  (List.dropWhile_sublist p).length_le

theorem isHeadOf_iff : ∀ (pat s : List Char), isHeadOf pat s = true ↔ ∃ r, s = pat ++ r
  | [], s => by simp [isHeadOf]
  | p :: ps, [] => by simp [isHeadOf]
  | p :: ps, d :: ds => by
    constructor
    · intro h
      simp only [isHeadOf, Bool.and_eq_true, beq_iff_eq] at h
      obtain ⟨r, hr⟩ := (isHeadOf_iff ps ds).mp h.2
      exact ⟨r, by simp [h.1, hr]⟩
    · rintro ⟨r, hr⟩
      simp only [List.cons_append, List.cons.injEq] at hr
      simp only [isHeadOf, Bool.and_eq_true, beq_iff_eq]
      exact ⟨hr.1.symm, (isHeadOf_iff ps ds).mpr ⟨r, hr.2⟩⟩

theorem occursIn_iff : ∀ (pat s : List Char),
    occursIn pat s = true ↔ ∃ u v, s = u ++ pat ++ v
  | pat, [] => by
    constructor
    · intro h
      exact ⟨[], (isHeadOf_iff pat []).mp h |>.choose,
        by simpa using ((isHeadOf_iff pat []).mp h).choose_spec⟩
    · rintro ⟨u, v, huv⟩
      have : pat = [] ∧ u = [] ∧ v = [] := by
        have := congrArg List.length huv
        simp at this
        constructor
        · exact List.length_eq_zero.mp (by omega)
        · exact ⟨List.length_eq_zero.mp (by omega), List.length_eq_zero.mp (by omega)⟩
      simp [occursIn, this.1, isHeadOf]
  | pat, d :: ds => by
    constructor
    · intro h
      simp only [occursIn, Bool.or_eq_true] at h
      rcases h with h | h
      · obtain ⟨r, hr⟩ := (isHeadOf_iff pat (d :: ds)).mp h
        exact ⟨[], r, by simp [hr]⟩
      · obtain ⟨u, v, huv⟩ := (occursIn_iff pat ds).mp h
        exact ⟨d :: u, v, by simp [huv]⟩
    · rintro ⟨u, v, huv⟩
      simp only [occursIn, Bool.or_eq_true]
      cases u with
      | nil =>
        exact Or.inl ((isHeadOf_iff pat (d :: ds)).mpr ⟨v, by simpa using huv⟩)
      | cons a u =>
        simp only [List.cons_append, List.cons.injEq] at huv
        exact Or.inr ((occursIn_iff pat ds).mpr ⟨u, v, huv.2⟩)

/-! ## Matcher inversion lemmas -/

theorem matchA_some {s tok rest : List Char}
    (h : matchA s = some (tok, rest)) :
    tok ≠ [] ∧ (∀ c ∈ tok, isTok c = true) ∧
      ∃ ws, (∀ c ∈ ws, isSpc c = true) ∧
        s = pre ++ (tok ++ ',' :: (ws ++ (pre ++ (tok ++ ')' :: rest)))) := by
  unfold matchA at h
  split at h
  · exact absurd h (by simp)
  next s1 hd1 =>
    split at h
    · exact absurd h (by simp)
    next htok =>
      split at h
      · exact absurd h (by simp)
      next s3 hd3 =>
        split at h
        · exact absurd h (by simp)
        next s5 hd5 =>
          split at h
          · exact absurd h (by simp)
          next s6 hd6 =>
            split at h
            · exact absurd h (by simp)
            next s7 hd7 =>
              injection h with h'
              injection h' with h1 h2
              subst h1; subst h2
              refine ⟨htok, fun c hc => mem_takeWhile_true isTok s1 c hc,
                s3.takeWhile isSpc, fun c hc => mem_takeWhile_true isSpc s3 c hc, ?_⟩
              have e1 : s = pre ++ s1 := (dropLit_some _ _ _).mp hd1
              have e2 : s1.dropWhile isTok = [','] ++ s3 := (dropLit_some _ _ _).mp hd3
              have e3 : s3.dropWhile isSpc = pre ++ s5 := (dropLit_some _ _ _).mp hd5
              have e4 : s5 = s1.takeWhile isTok ++ s6 := (dropLit_some _ _ _).mp hd6
              have e5 : s6 = [')'] ++ s7 := (dropLit_some _ _ _).mp hd7
              have g1 : s1 = s1.takeWhile isTok ++ (',' :: s3) := by
                conv_lhs => rw [← List.takeWhile_append_dropWhile isTok s1]
                rw [e2]; rfl
              have g3 : s3 = s3.takeWhile isSpc ++ (pre ++ s5) := by
                conv_lhs => rw [← List.takeWhile_append_dropWhile isSpc s3]
                rw [e3]
              rw [g1] at e1
              rw [g3, e4, e5] at e1
              simpa using e1

theorem matchB1_some {s tok rest : List Char}
    (h : matchB1 s = some (tok, rest)) :
    tok ≠ [] ∧ (∀ c ∈ tok, isTok c = true) ∧
      ∃ w, w ≠ [] ∧ (∀ c ∈ w, isLow c = true) ∧
        s = pre ++ (tok ++ ')' :: (w ++ rest)) ∧
        (rest = [] ∨ ∃ r rs, rest = r :: rs ∧ isLow r = false) := by
  unfold matchB1 at h
  split at h
  · exact absurd h (by simp)
  next s1 hd1 =>
    split at h
    · exact absurd h (by simp)
    next htok =>
      split at h
      · exact absurd h (by simp)
      next s2 hd2 =>
        split at h
        · exact absurd h (by simp)
        next hw =>
          injection h with h'
          injection h' with h1 h2
          subst h1; subst h2
          refine ⟨htok, fun c hc => mem_takeWhile_true isTok s1 c hc,
            s2.takeWhile isLow, hw, fun c hc => mem_takeWhile_true isLow s2 c hc, ?_, ?_⟩
          · have e1 : s = pre ++ s1 := (dropLit_some _ _ _).mp hd1
            have e2 : s1.dropWhile isTok = [')'] ++ s2 := (dropLit_some _ _ _).mp hd2
            have g1 : s1 = s1.takeWhile isTok ++ (')' :: s2) := by
              conv_lhs => rw [← List.takeWhile_append_dropWhile isTok s1]
              rw [e2]; rfl
            have g2 : s2 = s2.takeWhile isLow ++ s2.dropWhile isLow :=
              (List.takeWhile_append_dropWhile isLow s2).symm
            rw [g1] at e1
            rw [g2] at e1
            simpa using e1
          · cases hr : s2.dropWhile isLow with
            | nil => exact Or.inl rfl
            | cons r rs => exact Or.inr ⟨r, rs, rfl, dropWhile_head_false isLow s2 r rs hr⟩

theorem matchB2_some {s tok rest : List Char}
    (h : matchB2 s = some (tok, rest)) :
    tok ≠ [] ∧ (∀ c ∈ tok, isTok c = true) ∧
      ∃ ws lo, (∀ c ∈ ws, isSpc c = true) ∧ (∀ c ∈ lo, isLow c = true) ∧
        s = pre ++ (tok ++ ',' :: (ws ++ (pre ++ (tok ++ ')' :: (lo ++ ';' :: rest))))) := by
  unfold matchB2 at h
  split at h
  · exact absurd h (by simp)
  next s1 hd1 =>
    split at h
    · exact absurd h (by simp)
    next htok =>
      split at h
      · exact absurd h (by simp)
      next s3 hd3 =>
        split at h
        · exact absurd h (by simp)
        next s5 hd5 =>
          split at h
          · exact absurd h (by simp)
          next s6 hd6 =>
            split at h
            · exact absurd h (by simp)
            next s7 hd7 =>
              split at h
              · exact absurd h (by simp)
              next s8 hd8 =>
                injection h with h'
                injection h' with h1 h2
                subst h1; subst h2
                refine ⟨htok, fun c hc => mem_takeWhile_true isTok s1 c hc,
                  s3.takeWhile isSpc, s7.takeWhile isLow,
                  fun c hc => mem_takeWhile_true isSpc s3 c hc,
                  fun c hc => mem_takeWhile_true isLow s7 c hc, ?_⟩
                have e1 : s = pre ++ s1 := (dropLit_some _ _ _).mp hd1
                have e2 : s1.dropWhile isTok = [','] ++ s3 := (dropLit_some _ _ _).mp hd3
                have e3 : s3.dropWhile isSpc = pre ++ s5 := (dropLit_some _ _ _).mp hd5
                have e4 : s5 = s1.takeWhile isTok ++ s6 := (dropLit_some _ _ _).mp hd6
                have e5 : s6 = [')'] ++ s7 := (dropLit_some _ _ _).mp hd7
                have e6 : s7.dropWhile isLow = [';'] ++ s8 := (dropLit_some _ _ _).mp hd8
                have g1 : s1 = s1.takeWhile isTok ++ (',' :: s3) := by
                  conv_lhs => rw [← List.takeWhile_append_dropWhile isTok s1]
                  rw [e2]; rfl
                have g3 : s3 = s3.takeWhile isSpc ++ (pre ++ s5) := by
                  conv_lhs => rw [← List.takeWhile_append_dropWhile isSpc s3]
                  rw [e3]
                have g7 : s7 = s7.takeWhile isLow ++ (';' :: s8) := by
                  conv_lhs => rw [← List.takeWhile_append_dropWhile isLow s7]
                  rw [e6]; rfl
                rw [g1] at e1
                rw [g3, e4, e5, g7] at e1
                simpa using e1

theorem matchPropAux_some : ∀ (ns : List (List Char)) (s nm r : List Char),
    matchPropAux ns s = some (nm, r) → nm ∈ ns ∧ s = nm ++ r
  | [], s, nm, r => by simp [matchPropAux]
  | n :: ns, s, nm, r => by
    intro h
    unfold matchPropAux at h
    split at h
    next rr hd =>
      injection h with h'
      injection h' with h1 h2
      subst h1; subst h2
      exact ⟨by simp, (dropLit_some _ _ _).mp hd⟩
    next hd =>
      have := matchPropAux_some ns s nm r h
      exact ⟨by simp [this.1], this.2⟩

theorem matchProp_some {s nm r : List Char} (h : matchProp s = some (nm, r)) :
    nm ∈ propNames ∧ s = nm ++ r :=
  matchPropAux_some propNames s nm r h

theorem tryMid_some : ∀ (j : Nat) (s5 tok3 rest : List Char),
    tryMid s5 j = some (tok3, rest) →
    ∃ jj, 1 ≤ jj ∧ jj ≤ j ∧
      matchB1 ((s5.drop jj).dropWhile isSpc) = some (tok3, rest)
  | 0, s5, tok3, rest => by simp [tryMid]
  | j + 1, s5, tok3, rest => by
    intro h
    unfold tryMid at h
    split at h
    next r hm =>
      injection h with h'
      subst h'
      exact ⟨j + 1, by omega, le_refl _, hm⟩
    next hm =>
      obtain ⟨jj, h1, h2, h3⟩ := tryMid_some j s5 tok3 rest h
      exact ⟨jj, h1, by omega, h3⟩

theorem matchB3_some {s : List Char} {g : List Char × List Char × List Char} {rest : List Char}
    (h : matchB3 s = some (g, rest)) :
    ∃ nm ws jj s5,
      nm ∈ propNames ∧ (∀ c ∈ ws, isSpc c = true) ∧
      g.1 = nm ++ ':' :: ws ∧
      g.2.1 ≠ [] ∧ (∀ c ∈ g.2.1, isTok c = true) ∧
      s = nm ++ ':' :: (ws ++ (pre ++ (g.2.1 ++ ')' :: s5))) ∧
      1 ≤ jj ∧ jj ≤ (s5.takeWhile isLow).length ∧
      matchB1 ((s5.drop jj).dropWhile isSpc) = some (g.2.2, rest) := by
  unfold matchB3 at h
  split at h
  · exact absurd h (by simp)
  next nm s1 hprop =>
    split at h
    · exact absurd h (by simp)
    next s2 hd2 =>
      split at h
      · exact absurd h (by simp)
      next s4 hd4 =>
        split at h
        · exact absurd h (by simp)
        next htok2 =>
          split at h
          · exact absurd h (by simp)
          next s5 hd5 =>
            split at h
            · exact absurd h (by simp)
            next tok3 rest' hmid =>
              injection h with h'
              injection h' with h1 h2
              subst h1; subst h2
              obtain ⟨jj, hj1, hj2, hj3⟩ := tryMid_some _ s5 tok3 rest' hmid
              have e1 : s = nm ++ s1 := (matchProp_some hprop).2
              have e2 : s1 = [':'] ++ s2 := (dropLit_some _ _ _).mp hd2
              have e3 : s2.dropWhile isSpc = pre ++ s4 := (dropLit_some _ _ _).mp hd4
              have e4 : s4.dropWhile isTok = [')'] ++ s5 := (dropLit_some _ _ _).mp hd5
              have g2 : s2 = s2.takeWhile isSpc ++ (pre ++ s4) := by
                conv_lhs => rw [← List.takeWhile_append_dropWhile isSpc s2]
                rw [e3]
              have g4 : s4 = s4.takeWhile isTok ++ (')' :: s5) := by
                conv_lhs => rw [← List.takeWhile_append_dropWhile isTok s4]
                rw [e4]; rfl
              refine ⟨nm, s2.takeWhile isSpc, jj, s5, (matchProp_some hprop).1,
                fun c hc => mem_takeWhile_true isSpc s2 c hc, rfl, htok2,
                fun c hc => mem_takeWhile_true isTok s4 c hc, ?_, hj1, hj2, hj3⟩
              rw [e2] at e1
              rw [g2] at e1
              rw [g4] at e1
              simpa using e1

/-! ## Length facts: every match strictly shrinks the text -/

theorem matchA_strict {s : List Char} {p : List Char × List Char}
    (h : matchA s = some p) : (refTok p.1).length + p.2.length < s.length := by
  obtain ⟨tok, rest⟩ := p
  obtain ⟨hne, -, ws, -, hs⟩ := matchA_some h
  have h1 : 0 < tok.length := List.length_pos.mpr hne
  subst hs
  simp only [refTok, pre, List.length_append, List.length_cons, List.length_nil]
  omega

theorem matchB1_strict {s : List Char} {p : List Char × List Char}
    (h : matchB1 s = some p) : (refTok p.1).length + p.2.length < s.length := by
  obtain ⟨tok, rest⟩ := p
  obtain ⟨hne, -, w, hw, -, hs, -⟩ := matchB1_some h
  have h1 : 0 < w.length := List.length_pos.mpr hw
  subst hs
  simp only [refTok, pre, List.length_append, List.length_cons, List.length_nil]
  omega

theorem matchB2_strict {s : List Char} {p : List Char × List Char}
    (h : matchB2 s = some p) : (refTok p.1 ++ [';']).length + p.2.length < s.length := by
  obtain ⟨tok, rest⟩ := p
  obtain ⟨hne, -, ws, lo, -, -, hs⟩ := matchB2_some h
  have h1 : 0 < tok.length := List.length_pos.mpr hne
  subst hs
  simp only [refTok, pre, List.length_append, List.length_cons, List.length_nil]
  omega

theorem matchB3_strict {s : List Char} {p : (List Char × List Char × List Char) × List Char}
    (h : matchB3 s = some p) : (replB3 p.1).length + p.2.length < s.length := by
  obtain ⟨g, rest⟩ := p
  obtain ⟨nm, ws, jj, s5, -, -, hg1, -, -, hs, hj1, hj2, hj3⟩ := matchB3_some h
  obtain ⟨-, -, w2, hw2, -, hs5, -⟩ := matchB1_some hj3
  have f1 : ((s5.drop jj).dropWhile isSpc).length =
      pre.length + (g.2.2.length + (1 + (w2.length + rest.length))) := by
    rw [hs5]
    simp only [List.length_append, List.length_cons]
    omega
  have f2 : ((s5.drop jj).dropWhile isSpc).length ≤ s5.length - jj := by
    have := length_dropWhile_le isSpc (s5.drop jj)
    simpa [List.length_drop] using this
  have f3 : 0 < w2.length := List.length_pos.mpr hw2
  subst hs
  simp only [replB3, hg1, refTok, pre, List.length_append, List.length_cons,
    List.length_nil] at f1 ⊢
  omega

/-! ## Scanner equations -/

theorem subF_congr {α : Type} {mt : List Char → Option (α × List Char)} {rp : α → List Char}
    (hm : ∀ s p, mt s = some p → p.2.length < s.length) :
    ∀ n m (s : List Char), s.length ≤ n → s.length ≤ m →
      subF mt rp n s = subF mt rp m s := by
  intro n
  induction n with
  | zero =>
    intro m s hn _
    have hs : s = [] := List.length_eq_zero.mp (Nat.le_zero.mp hn)
    subst hs
    cases m <;> rfl
  | succ n ih =>
    intro m s hn hm2
    cases s with
    | nil => cases m <;> rfl
    | cons c cs =>
      cases m with
      | zero => simp at hm2
      | succ m' =>
        have hn' : cs.length + 1 ≤ n + 1 := by simpa using hn
        have hm2' : cs.length + 1 ≤ m' + 1 := by simpa using hm2
        cases hmt : mt (c :: cs) with
        | none =>
          simp only [subF, hmt]
          exact congrArg (c :: ·) (ih m' cs (by omega) (by omega))
        | some p =>
          obtain ⟨tok, rest⟩ := p
          have hr : rest.length < cs.length + 1 := by simpa using hm _ _ hmt
          simp only [subF, hmt]
          exact congrArg (rp tok ++ ·) (ih m' rest (by omega) (by omega))

theorem runSub_cons_none {α : Type} (mt : List Char → Option (α × List Char))
    (rp : α → List Char) {c : Char} {cs : List Char} (h : mt (c :: cs) = none) :
    runSub mt rp (c :: cs) = c :: runSub mt rp cs := by
  unfold runSub
  simp only [List.length_cons, subF, h]

theorem runSub_cons_some {α : Type} {mt : List Char → Option (α × List Char)}
    {rp : α → List Char}
    (hm : ∀ s p, mt s = some p → p.2.length < s.length)
    {c : Char} {cs : List Char} {tok : α} {rest : List Char}
    (h : mt (c :: cs) = some (tok, rest)) :
    runSub mt rp (c :: cs) = rp tok ++ runSub mt rp rest := by
  unfold runSub
  simp only [List.length_cons, subF, h]
  have hr : rest.length < cs.length + 1 := by simpa using hm _ _ h
  exact congrArg (rp tok ++ ·) (subF_congr hm cs.length rest.length rest (by omega) (le_refl _))

theorem matchA_lt : ∀ (s : List Char) (p : List Char × List Char),
    matchA s = some p → p.2.length < s.length :=
  fun _ _ h => lt_of_le_of_lt (Nat.le_add_left _ _) (matchA_strict h)

theorem matchB1_lt : ∀ (s : List Char) (p : List Char × List Char),
    matchB1 s = some p → p.2.length < s.length :=
  fun _ _ h => lt_of_le_of_lt (Nat.le_add_left _ _) (matchB1_strict h)

theorem matchB2_lt : ∀ (s : List Char) (p : List Char × List Char),
    matchB2 s = some p → p.2.length < s.length :=
  fun _ _ h => lt_of_le_of_lt (Nat.le_add_left _ _) (matchB2_strict h)

theorem matchB3_lt : ∀ (s : List Char) (p : (List Char × List Char × List Char) × List Char),
    matchB3 s = some p → p.2.length < s.length :=
  fun _ _ h => lt_of_le_of_lt (Nat.le_add_left _ _) (matchB3_strict h)

theorem ruleA_cons_none {c : Char} {cs : List Char} (h : matchA (c :: cs) = none) :
    ruleA (c :: cs) = c :: ruleA cs :=
  runSub_cons_none matchA refTok h

theorem ruleA_cons_some {c : Char} {cs tok rest : List Char}
    (h : matchA (c :: cs) = some (tok, rest)) :
    ruleA (c :: cs) = refTok tok ++ ruleA rest :=
  runSub_cons_some matchA_lt h

theorem ruleB1_cons_none {c : Char} {cs : List Char} (h : matchB1 (c :: cs) = none) :
    ruleB1 (c :: cs) = c :: ruleB1 cs :=
  runSub_cons_none matchB1 refTok h

theorem ruleB1_cons_some {c : Char} {cs tok rest : List Char}
    (h : matchB1 (c :: cs) = some (tok, rest)) :
    ruleB1 (c :: cs) = refTok tok ++ ruleB1 rest :=
  runSub_cons_some matchB1_lt h

theorem ruleB2_cons_none {c : Char} {cs : List Char} (h : matchB2 (c :: cs) = none) :
    ruleB2 (c :: cs) = c :: ruleB2 cs :=
  runSub_cons_none matchB2 _ h

theorem ruleB2_cons_some {c : Char} {cs tok rest : List Char}
    (h : matchB2 (c :: cs) = some (tok, rest)) :
    ruleB2 (c :: cs) = (refTok tok ++ [';']) ++ ruleB2 rest :=
  runSub_cons_some matchB2_lt h

theorem ruleB3_cons_none {c : Char} {cs : List Char} (h : matchB3 (c :: cs) = none) :
    ruleB3 (c :: cs) = c :: ruleB3 cs :=
  runSub_cons_none matchB3 replB3 h

theorem ruleB3_cons_some {c : Char} {cs rest : List Char} {g : List Char × List Char × List Char}
    (h : matchB3 (c :: cs) = some (g, rest)) :
    ruleB3 (c :: cs) = replB3 g ++ ruleB3 rest :=
  runSub_cons_some matchB3_lt h

/-! ## A run changes the text iff some rule matches somewhere -/

theorem runSub_length_le {α : Type} {mt : List Char → Option (α × List Char)}
    {rp : α → List Char}
    (hst : ∀ s p, mt s = some p → (rp p.1).length + p.2.length < s.length) :
    ∀ (n : Nat) (s : List Char), s.length ≤ n → (runSub mt rp s).length ≤ s.length := by
  intro n
  induction n with
  | zero =>
    intro s hn
    have hs : s = [] := List.length_eq_zero.mp (Nat.le_zero.mp hn)
    subst hs
    simp [runSub, subF]
  | succ n ih =>
    intro s hn
    cases s with
    | nil => simp [runSub, subF]
    | cons c cs =>
      have hm : ∀ s p, mt s = some p → p.2.length < s.length :=
        fun s p h => lt_of_le_of_lt (Nat.le_add_left _ _) (hst s p h)
      cases hmt : mt (c :: cs) with
      | none =>
        rw [runSub_cons_none mt rp hmt]
        have := ih cs (by simp at hn; omega)
        simp only [List.length_cons]
        omega
      | some p =>
        obtain ⟨tok, rest⟩ := p
        rw [runSub_cons_some hm hmt]
        have h1 := hst _ _ hmt
        have h2 : rest.length ≤ n := by
          have := hm _ _ hmt
          simp only [List.length_cons] at this hn
          omega
        have := ih rest h2
        simp only [List.length_append, List.length_cons] at h1 ⊢
        omega

theorem runSub_length_lt {α : Type} {mt : List Char → Option (α × List Char)}
    {rp : α → List Char}
    (hst : ∀ s p, mt s = some p → (rp p.1).length + p.2.length < s.length) :
    ∀ (n : Nat) (s : List Char), s.length ≤ n → anyMatch mt s = true →
      (runSub mt rp s).length < s.length := by
  intro n
  induction n with
  | zero =>
    intro s hn hany
    have hs : s = [] := List.length_eq_zero.mp (Nat.le_zero.mp hn)
    subst hs
    simp [anyMatch] at hany
  | succ n ih =>
    intro s hn hany
    cases s with
    | nil => simp [anyMatch] at hany
    | cons c cs =>
      have hm : ∀ s p, mt s = some p → p.2.length < s.length :=
        fun s p h => lt_of_le_of_lt (Nat.le_add_left _ _) (hst s p h)
      cases hmt : mt (c :: cs) with
      | none =>
        rw [runSub_cons_none mt rp hmt]
        simp only [anyMatch, hmt, Option.isSome_none, Bool.false_or] at hany
        have := ih cs (by simp at hn; omega) hany
        simp only [List.length_cons]
        omega
      | some p =>
        obtain ⟨tok, rest⟩ := p
        rw [runSub_cons_some hm hmt]
        have h1 := hst _ _ hmt
        have h2 : rest.length ≤ n := by
          have := hm _ _ hmt
          simp only [List.length_cons] at this hn
          omega
        have := runSub_length_le hst n rest h2
        simp only [List.length_append, List.length_cons] at h1 ⊢
        omega

/-! ## Occurrence-peeling lemmas

These express that the literal `var(--spacing-` (which opens every
pattern and every replacement) cannot begin strictly inside a token run,
inside the literal itself, or at a one-character delimiter; they are the
combinatorial heart of the overlap analysis. -/

theorem pre_eq : pre = 'v' :: preTl := rfl

/-- An occurrence of a `v`-initial pattern lies beyond any `v`-free block. -/
theorem nov_peel : ∀ (w : List Char), (∀ c ∈ w, c ≠ 'v') →
    ∀ (u z r : List Char), w ++ r = u ++ 'v' :: z →
      ∃ u', u = w ++ u' ∧ r = u' ++ 'v' :: z
  | [], _, u, z, r, h => ⟨u, rfl, h⟩
  | x :: w, hw, u, z, r, h => by
    cases u with
    | nil =>
      exfalso
      simp only [List.nil_append, List.cons_append, List.cons.injEq] at h
      exact hw x (by simp) h.1
    | cons d u' =>
      simp only [List.cons_append, List.cons.injEq] at h
      obtain ⟨u'', hu, hr⟩ :=
        nov_peel w (fun c hc => hw c (by simp [hc])) u' z r h.2
      exact ⟨u'', by simp [h.1, hu], hr⟩

/-- A token run followed by a delimiter other than `v`, `a`, `r`, `(`
cannot begin the literal `var(--spacing-`. -/
theorem nopre_append {tk : List Char} (htk : ∀ c ∈ tk, isTok c = true)
    {c₀ : Char} (hv : c₀ ≠ 'v') (ha : c₀ ≠ 'a') (hr : c₀ ≠ 'r') (hp : c₀ ≠ '(')
    (r q : List Char) : tk ++ c₀ :: r ≠ pre ++ q := by
  intro heq
  rcases tk with _ | ⟨a, _ | ⟨b, _ | ⟨c, _ | ⟨d, tk⟩⟩⟩⟩
  · simp only [List.nil_append, pre, List.cons_append, List.cons.injEq] at heq
    exact hv heq.1
  · simp only [List.cons_append, List.nil_append, pre, List.cons.injEq] at heq
    exact ha heq.2.1
  · simp only [List.cons_append, List.nil_append, pre, List.cons.injEq] at heq
    exact hr heq.2.2.1
  · simp only [List.cons_append, List.nil_append, pre, List.cons.injEq] at heq
    exact hp heq.2.2.2.1
  · simp only [List.cons_append, pre, List.cons.injEq] at heq
    have hd : d = '(' := heq.2.2.2.1
    have : isTok d = true := htk d (by simp)
    rw [hd] at this
    exact absurd this (by decide)

/-- An occurrence of `var(--spacing-` lies beyond any token run and its
closing delimiter. -/
theorem tok_peel {tk : List Char} (htk : ∀ c ∈ tk, isTok c = true)
    {c₀ : Char} (hv : c₀ ≠ 'v') (ha : c₀ ≠ 'a') (hr : c₀ ≠ 'r') (hp : c₀ ≠ '(') :
    ∀ (u z r : List Char), tk ++ c₀ :: r = u ++ (pre ++ z) →
      ∃ u', u = tk ++ c₀ :: u' ∧ r = u' ++ (pre ++ z) := by
  induction tk with
  | nil =>
    intro u z r h
    cases u with
    | nil =>
      exfalso
      simp only [List.nil_append, pre, List.cons_append, List.cons.injEq] at h
      exact hv h.1
    | cons d u' =>
      simp only [List.nil_append, List.cons_append, List.cons.injEq] at h
      exact ⟨u', by simp [h.1], h.2⟩
  | cons x tk' ih =>
    intro u z r h
    cases u with
    | nil =>
      exact absurd (by simpa using h)
        (nopre_append htk hv ha hr hp r z)
    | cons d u' =>
      simp only [List.cons_append, List.cons.injEq] at h
      obtain ⟨u'', hu, hrr⟩ := ih (fun c hc => htk c (by simp [hc])) u' z r h.2
      exact ⟨u'', by simp [h.1, hu], hrr⟩

/-- Two token runs closed by non-token delimiters agree exactly. -/
theorem alnum_eq : ∀ {A : List Char}, (∀ c ∈ A, isTok c = true) →
    ∀ {B : List Char}, (∀ c ∈ B, isTok c = true) →
    ∀ {c₁ c₂ : Char}, isTok c₁ = false → isTok c₂ = false →
    ∀ {r₁ r₂ : List Char}, A ++ c₁ :: r₁ = B ++ c₂ :: r₂ →
      A = B ∧ c₁ = c₂ ∧ r₁ = r₂ := by
  intro A
  induction A with
  | nil =>
    intro _ B hB c₁ c₂ h1 h2 r₁ r₂ h
    cases B with
    | nil =>
      simp only [List.nil_append, List.cons.injEq] at h
      exact ⟨rfl, h.1, h.2⟩
    | cons y B' =>
      exfalso
      simp only [List.nil_append, List.cons_append, List.cons.injEq] at h
      have := hB y (by simp)
      rw [← h.1] at this
      rw [this] at h1
      exact absurd h1 (by simp)
  | cons x A' ih =>
    intro hA B hB c₁ c₂ h1 h2 r₁ r₂ h
    cases B with
    | nil =>
      exfalso
      simp only [List.cons_append, List.nil_append, List.cons.injEq] at h
      have := hA x (by simp)
      rw [h.1] at this
      rw [this] at h2
      exact absurd h2 (by simp)
    | cons y B' =>
      simp only [List.cons_append, List.cons.injEq] at h
      obtain ⟨hAB, hc, hrr⟩ :=
        ih (fun c hc => hA c (by simp [hc])) (fun c hc => hB c (by simp [hc])) h1 h2 h.2
      exact ⟨by simp [h.1, hAB], hc, hrr⟩

theorem dropLit_eq_none {l s : List Char} (h : ∀ r, s ≠ l ++ r) : dropLit l s = none := by
  cases hd : dropLit l s with
  | none => rfl
  | some r => exact absurd ((dropLit_some _ _ _).mp hd) (h r)

/-! ## Head-failure lemmas for the matchers -/

theorem matchA_none_head {c : Char} (hc : c ≠ 'v') (t : List Char) :
    matchA (c :: t) = none := by
  unfold matchA
  have hd : dropLit pre (c :: t) = none := by
    simp [pre, dropLit, hc]
  rw [hd]

theorem matchB1_none_head {c : Char} (hc : c ≠ 'v') (t : List Char) :
    matchB1 (c :: t) = none := by
  unfold matchB1
  have hd : dropLit pre (c :: t) = none := by
    simp [pre, dropLit, hc]
  rw [hd]

theorem matchB2_none_head {c : Char} (hc : c ≠ 'v') (t : List Char) :
    matchB2 (c :: t) = none := by
  unfold matchB2
  have hd : dropLit pre (c :: t) = none := by
    simp [pre, dropLit, hc]
  rw [hd]

theorem matchA_none_tok {tk : List Char} (htk : ∀ c ∈ tk, isTok c = true)
    {c₀ : Char} (hv : c₀ ≠ 'v') (ha : c₀ ≠ 'a') (hr : c₀ ≠ 'r') (hp : c₀ ≠ '(')
    (r : List Char) : matchA (tk ++ c₀ :: r) = none := by
  unfold matchA
  have hd : dropLit pre (tk ++ c₀ :: r) = none :=
    dropLit_eq_none (fun q => nopre_append htk hv ha hr hp r q)
  rw [hd]

theorem matchB1_none_tok {tk : List Char} (htk : ∀ c ∈ tk, isTok c = true)
    {c₀ : Char} (hv : c₀ ≠ 'v') (ha : c₀ ≠ 'a') (hr : c₀ ≠ 'r') (hp : c₀ ≠ '(')
    (r : List Char) : matchB1 (tk ++ c₀ :: r) = none := by
  unfold matchB1
  have hd : dropLit pre (tk ++ c₀ :: r) = none :=
    dropLit_eq_none (fun q => nopre_append htk hv ha hr hp r q)
  rw [hd]

theorem matchB2_none_tok {tk : List Char} (htk : ∀ c ∈ tk, isTok c = true)
    {c₀ : Char} (hv : c₀ ≠ 'v') (ha : c₀ ≠ 'a') (hr : c₀ ≠ 'r') (hp : c₀ ≠ '(')
    (r : List Char) : matchB2 (tk ++ c₀ :: r) = none := by
  unfold matchB2
  have hd : dropLit pre (tk ++ c₀ :: r) = none :=
    dropLit_eq_none (fun q => nopre_append htk hv ha hr hp r q)
  rw [hd]

/-! ## Walk lemmas: the scanner copies match-free regions verbatim -/

theorem runSub_walk {α : Type} {mt : List Char → Option (α × List Char)}
    {rp : α → List Char} :
    ∀ (w t : List Char),
      (∀ w₂, (∃ w₁, w = w₁ ++ w₂) → w₂ ≠ [] → mt (w₂ ++ t) = none) →
      runSub mt rp (w ++ t) = w ++ runSub mt rp t := by
  intro w
  induction w with
  | nil => intro t _; rfl
  | cons c w' ih =>
    intro t hw
    have h0 : mt ((c :: w') ++ t) = none :=
      hw (c :: w') ⟨[], rfl⟩ (by simp)
    rw [List.cons_append, runSub_cons_none mt rp (by simpa using h0)]
    rw [ih t (fun w₂ hex hne => hw w₂ (by obtain ⟨w₁, hw₁⟩ := hex; exact ⟨c :: w₁, by simp [hw₁]⟩) hne)]
    simp

theorem walk_nov {α : Type} {mt : List Char → Option (α × List Char)} {rp : α → List Char}
    (hhead : ∀ (c : Char) (t : List Char), c ≠ 'v' → mt (c :: t) = none)
    (w : List Char) (hw : ∀ c ∈ w, c ≠ 'v') (t : List Char) :
    runSub mt rp (w ++ t) = w ++ runSub mt rp t :=
  runSub_walk w t (fun w₂ hex hne => by
    cases w₂ with
    | nil => exact absurd rfl hne
    | cons c w₂' =>
      have hc : c ∈ w := by
        obtain ⟨w₁, h1⟩ := hex
        rw [h1]; simp
      exact hhead c (w₂' ++ t) (hw c hc))

theorem walk_tokdel {α : Type} {mt : List Char → Option (α × List Char)} {rp : α → List Char}
    {tk : List Char} (htk : ∀ c ∈ tk, isTok c = true) {c₀ : Char}
    (hnt : ∀ (tk' : List Char), (∀ c ∈ tk', isTok c = true) → ∀ r, mt (tk' ++ c₀ :: r) = none)
    (t : List Char) :
    runSub mt rp ((tk ++ [c₀]) ++ t) = (tk ++ [c₀]) ++ runSub mt rp t :=
  runSub_walk _ t (fun w₂ hex hne => by
    obtain ⟨w₁, h1⟩ := hex
    rcases List.append_eq_append_iff.mp h1.symm with ⟨a', ha1, ha2⟩ | ⟨c', hc1, hc2⟩
    · subst ha2
      have ha' : ∀ c ∈ a', isTok c = true := fun c hcm => htk c (by rw [ha1]; simp [hcm])
      have he : (a' ++ [c₀]) ++ t = a' ++ c₀ :: t := by simp
      rw [he]
      exact hnt a' ha' t
    · cases c' with
      | nil =>
        have hw₂ : w₂ = [c₀] := by simpa using hc2.symm
        subst hw₂
        exact hnt [] (by simp) t
      | cons x c'' =>
        exfalso
        apply hne
        have h2 : ([c₀] : List Char) = x :: (c'' ++ w₂) := by simpa using hc2
        simp only [List.cons.injEq] at h2
        exact (List.append_eq_nil.mp h2.2.symm).2)

/-! ## Matcher evaluation at canonical shapes -/

theorem dropLit_one {c : Char} (r : List Char) : dropLit [c] (c :: r) = some r := by
  simp [dropLit]

theorem dropLit_pre_cons (r : List Char) : dropLit pre ('v' :: (preTl ++ r)) = some r := by
  have h : ('v' :: (preTl ++ r)) = pre ++ r := by rw [pre_eq]; simp
  rw [h, dropLit_self]

theorem matchA_span {tok ws : List Char} (h1 : tok ≠ []) (h2 : ∀ c ∈ tok, isTok c = true)
    (h3 : ∀ c ∈ ws, isSpc c = true) (t : List Char) :
    matchA (pre ++ (tok ++ ',' :: (ws ++ (pre ++ (tok ++ ')' :: t))))) = some (tok, t) := by
  have ht := takeWhile_append_eq isTok tok h2 ',' (ws ++ (pre ++ (tok ++ ')' :: t))) (by decide)
  have hs := takeWhile_append_eq isSpc ws h3 'v' (preTl ++ (tok ++ ')' :: t)) (by decide)
  have hws : ws ++ (pre ++ (tok ++ ')' :: t)) = ws ++ 'v' :: (preTl ++ (tok ++ ')' :: t)) := by
    rw [pre_eq]; simp
  have htk : tok ++ ')' :: t = tok ++ ([')'] ++ t) := by simp
  unfold matchA
  rw [dropLit_self]
  simp only []
  rw [ht.1, if_neg h1, ht.2, dropLit_one]
  simp only []
  rw [hws, hs.2, dropLit_pre_cons]
  simp only []
  rw [htk, dropLit_self]
  simp only []
  rw [List.singleton_append, dropLit_one]

theorem matchA_none_ref {X : List Char} (h2 : ∀ c ∈ X, isTok c = true) (r : List Char) :
    matchA (pre ++ (X ++ ')' :: r)) = none := by
  have ht := takeWhile_append_eq isTok X h2 ')' r (by decide)
  unfold matchA
  rw [dropLit_self]
  simp only []
  by_cases h1 : X = []
  · subst h1
    simp only [List.nil_append] at ht ⊢
    rw [ht.1, if_pos rfl]
  · rw [ht.1, if_neg h1, ht.2]
    rw [show dropLit [','] (')' :: r) = none by simp [dropLit]]

theorem matchB1_span {X : List Char} (h1 : X ≠ []) (h2 : ∀ c ∈ X, isTok c = true)
    {c : Char} (hc : isLow c = true) (r : List Char) :
    matchB1 (pre ++ (X ++ ')' :: c :: r)) = some (X, (c :: r).dropWhile isLow) := by
  have ht := takeWhile_append_eq isTok X h2 ')' (c :: r) (by decide)
  unfold matchB1
  rw [dropLit_self]
  simp only []
  rw [ht.1, if_neg h1, ht.2, dropLit_one]
  simp only []
  rw [if_neg (by simp [List.takeWhile_cons, hc])]

theorem matchB1_none_nolow {X : List Char} (h2 : ∀ c ∈ X, isTok c = true)
    {r : List Char} (hr : r.takeWhile isLow = []) :
    matchB1 (pre ++ (X ++ ')' :: r)) = none := by
  have ht := takeWhile_append_eq isTok X h2 ')' r (by decide)
  unfold matchB1
  rw [dropLit_self]
  simp only []
  by_cases h1 : X = []
  · subst h1
    simp only [List.nil_append] at ht ⊢
    rw [ht.1, if_pos rfl]
  · rw [ht.1, if_neg h1, ht.2, dropLit_one]
    simp only []
    rw [if_pos hr]

theorem matchB1_none_comma {X : List Char} (h2 : ∀ c ∈ X, isTok c = true) (r : List Char) :
    matchB1 (pre ++ (X ++ ',' :: r)) = none := by
  have ht := takeWhile_append_eq isTok X h2 ',' r (by decide)
  unfold matchB1
  rw [dropLit_self]
  simp only []
  by_cases h1 : X = []
  · subst h1
    simp only [List.nil_append] at ht ⊢
    rw [ht.1, if_pos rfl]
  · rw [ht.1, if_neg h1, ht.2]
    rw [show dropLit [')'] (',' :: r) = none by simp [dropLit]]

theorem matchB2_span {X ws lo : List Char} (h1 : X ≠ []) (h2 : ∀ c ∈ X, isTok c = true)
    (h3 : ∀ c ∈ ws, isSpc c = true) (h4 : ∀ c ∈ lo, isLow c = true) (t : List Char) :
    matchB2 (pre ++ (X ++ ',' :: (ws ++ (pre ++ (X ++ ')' :: (lo ++ ';' :: t)))))) =
      some (X, t) := by
  have ht := takeWhile_append_eq isTok X h2 ','
    (ws ++ (pre ++ (X ++ ')' :: (lo ++ ';' :: t)))) (by decide)
  have hs := takeWhile_append_eq isSpc ws h3 'v'
    (preTl ++ (X ++ ')' :: (lo ++ ';' :: t))) (by decide)
  have hlo := takeWhile_append_eq isLow lo h4 ';' t (by decide)
  have hws : ws ++ (pre ++ (X ++ ')' :: (lo ++ ';' :: t))) =
      ws ++ 'v' :: (preTl ++ (X ++ ')' :: (lo ++ ';' :: t))) := by
    rw [pre_eq]; simp
  have htk : X ++ ')' :: (lo ++ ';' :: t) = X ++ ([')'] ++ (lo ++ ';' :: t)) := by simp
  unfold matchB2
  rw [dropLit_self]
  simp only []
  rw [ht.1, if_neg h1, ht.2, dropLit_one]
  simp only []
  rw [hws, hs.2, dropLit_pre_cons]
  simp only []
  rw [htk, dropLit_self]
  simp only []
  rw [List.singleton_append, dropLit_one]
  simp only []
  rw [hlo.2, dropLit_one]

theorem matchB2_none_ref {X : List Char} (h2 : ∀ c ∈ X, isTok c = true) (r : List Char) :
    matchB2 (pre ++ (X ++ ')' :: r)) = none := by
  have ht := takeWhile_append_eq isTok X h2 ')' r (by decide)
  unfold matchB2
  rw [dropLit_self]
  simp only []
  by_cases h1 : X = []
  · subst h1
    simp only [List.nil_append] at ht ⊢
    rw [ht.1, if_pos rfl]
  · rw [ht.1, if_neg h1, ht.2]
    rw [show dropLit [','] (')' :: r) = none by simp [dropLit]]

/-! ## Output tracing: reading the scanner's output back to its input -/

theorem runSub_nil {α : Type} (mt : List Char → Option (α × List Char)) (rp : α → List Char) :
    runSub mt rp [] = [] := rfl

theorem runSub_outstep {α : Type} {mt : List Char → Option (α × List Char)} {rp : α → List Char}
    (hm : ∀ s p, mt s = some p → p.2.length < s.length)
    (hrp : ∀ tok, ∃ rr, rp tok = 'v' :: rr)
    {s : List Char} {x : Char} {q : List Char} (hx : x ≠ 'v')
    (h : runSub mt rp s = x :: q) :
    ∃ s', s = x :: s' ∧ runSub mt rp s' = q := by
  cases s with
  | nil => exact absurd h (by simp [runSub, subF])
  | cons c cs =>
    cases hmt : mt (c :: cs) with
    | some p =>
      obtain ⟨tok, rest⟩ := p
      rw [runSub_cons_some hm hmt] at h
      obtain ⟨rr, hrr⟩ := hrp tok
      rw [hrr] at h
      exfalso
      simp only [List.cons_append, List.cons.injEq] at h
      exact hx h.1.symm
    | none =>
      rw [runSub_cons_none mt rp hmt] at h
      injection h with h1 h2
      exact ⟨cs, by rw [h1], h2⟩

theorem runSub_outlit {α : Type} {mt : List Char → Option (α × List Char)} {rp : α → List Char}
    (hm : ∀ s p, mt s = some p → p.2.length < s.length)
    (hrp : ∀ tok, ∃ rr, rp tok = 'v' :: rr) :
    ∀ (w : List Char), (∀ c ∈ w, c ≠ 'v') →
    ∀ (s q : List Char), runSub mt rp s = w ++ q →
      ∃ s', s = w ++ s' ∧ runSub mt rp s' = q := by
  intro w
  induction w with
  | nil => intro _ s q h; exact ⟨s, rfl, h⟩
  | cons x w' ih =>
    intro hw s q h
    obtain ⟨s', hs', hq⟩ :=
      runSub_outstep hm hrp (hw x (by simp)) (by simpa using h)
    obtain ⟨s'', hs'', hq'⟩ := ih (fun c hc => hw c (by simp [hc])) s' q hq
    exact ⟨s'', by simp [hs', hs''], hq'⟩

theorem runSub_outtok {α : Type} {mt : List Char → Option (α × List Char)} {rp : α → List Char}
    (hm : ∀ s p, mt s = some p → p.2.length < s.length)
    (hrp4 : ∀ tok, ∃ rr, rp tok = 'v' :: 'a' :: 'r' :: '(' :: rr) :
    ∀ (T : List Char), (∀ c ∈ T, isTok c = true) →
    ∀ (s q : List Char), runSub mt rp s = T ++ ')' :: q →
      ∃ s', s = T ++ ')' :: s' ∧ runSub mt rp s' = q := by
  have hrp : ∀ tok, ∃ rr, rp tok = 'v' :: rr := by
    intro tok
    obtain ⟨rr, hrr⟩ := hrp4 tok
    exact ⟨'a' :: 'r' :: '(' :: rr, hrr⟩
  intro T
  induction T with
  | nil =>
    intro _ s q h
    obtain ⟨s', hs', hq⟩ :=
      runSub_outstep hm hrp (show ')' ≠ 'v' by decide) (by simpa using h)
    exact ⟨s', by simpa using hs', hq⟩
  | cons x T' ih =>
    intro hT s q h
    by_cases hx : x = 'v'
    · subst hx
      cases s with
      | nil => exact absurd h (by simp [runSub, subF])
      | cons c cs =>
        cases hmt : mt (c :: cs) with
        | some p =>
          obtain ⟨tok, rest⟩ := p
          rw [runSub_cons_some hm hmt] at h
          obtain ⟨rr, hrr⟩ := hrp4 tok
          rw [hrr] at h
          exfalso
          simp only [List.cons_append] at h
          injection h with h0 h
          rcases T' with _ | ⟨y, T''⟩
          · simp only [List.nil_append] at h
            injection h with h1 _
            exact absurd h1 (by decide)
          · simp only [List.cons_append] at h
            injection h with h1 h
            rcases T'' with _ | ⟨z, T₃⟩
            · simp only [List.nil_append] at h
              injection h with h2 _
              exact absurd h2 (by decide)
            · simp only [List.cons_append] at h
              injection h with h2 h
              rcases T₃ with _ | ⟨w', T₄⟩
              · simp only [List.nil_append] at h
                injection h with h3 _
                exact absurd h3 (by decide)
              · simp only [List.cons_append] at h
                injection h with h3 _
                have hmem : w' ∈ 'v' :: y :: z :: w' :: T₄ := by simp
                have := hT w' hmem
                rw [← h3] at this
                exact absurd this (by decide)
        | none =>
          rw [runSub_cons_none mt rp hmt] at h
          injection h with h1 h2
          obtain ⟨s', hs', hq⟩ := ih (fun c hc => hT c (by simp [hc])) cs q h2
          exact ⟨s', by simp [h1, hs'], hq⟩
    · obtain ⟨s', hs', hq⟩ := runSub_outstep hm hrp hx (by simpa using h)
      obtain ⟨s'', hs'', hq'⟩ := ih (fun c hc => hT c (by simp [hc])) s' q hq
      exact ⟨s'', by simp [hs', hs''], hq'⟩

/-- Any occurrence of `var(--spacing-` in `var(--spacing-tok) ++ Z` that
does not start at the very beginning lies wholly inside `Z`. -/
theorem refTok_peel {tok : List Char} (htok : ∀ x ∈ tok, isTok x = true)
    {Z u w : List Char} (h : refTok tok ++ Z = u ++ (pre ++ w)) (hu : u ≠ []) :
    ∃ u', u = refTok tok ++ u' ∧ Z = u' ++ (pre ++ w) := by
  cases u with
  | nil => exact absurd rfl hu
  | cons d u₁ =>
    have h' : 'v' :: (preTl ++ (tok ++ ')' :: Z)) = d :: (u₁ ++ (pre ++ w)) := by
      rw [← List.cons_append, ← pre_eq]
      simpa [refTok] using h
    injection h' with hd h'
    have hw' : preTl ++ (tok ++ ')' :: Z) = u₁ ++ 'v' :: (preTl ++ w) := by
      rw [h']
      rw [pre_eq]
      simp
    obtain ⟨u₂, hu₂, h₂⟩ := nov_peel preTl (by decide) u₁ (preTl ++ w) (tok ++ ')' :: Z) hw'
    have h₂' : tok ++ ')' :: Z = u₂ ++ (pre ++ w) := by
      rw [h₂, pre_eq]
      simp
    obtain ⟨u₃, hu₃, h₃⟩ := tok_peel htok (by decide) (by decide) (by decide) (by decide)
      u₂ w Z h₂'
    refine ⟨u₃, ?_, h₃⟩
    rw [← hd, hu₂, hu₃, refTok, pre_eq]
    simp

theorem hasBad_lift {r : List Char} (w : List Char) (h : hasBad r) : hasBad (w ++ r) := by
  obtain ⟨u, T, c, v, h1, h2, h3, h4⟩ := h
  exact ⟨w ++ u, T, c, v, h1, h2, h3, by rw [h4]; simp⟩

theorem refTokV (tok : List Char) : ∃ rr, refTok tok = 'v' :: rr :=
  ⟨preTl ++ (tok ++ [')']), rfl⟩

theorem refTokV4 (tok : List Char) : ∃ rr, refTok tok = 'v' :: 'a' :: 'r' :: '(' :: rr :=
  ⟨['-', '-', 's', 'p', 'a', 'c', 'i', 'n', 'g', '-'] ++ (tok ++ [')']), rfl⟩

theorem refTokSemiV (tok : List Char) : ∃ rr, refTok tok ++ [';'] = 'v' :: rr :=
  ⟨(preTl ++ (tok ++ [')'])) ++ [';'], rfl⟩

theorem refTokSemiV4 (tok : List Char) :
    ∃ rr, refTok tok ++ [';'] = 'v' :: 'a' :: 'r' :: '(' :: rr :=
  ⟨(['-', '-', 's', 'p', 'a', 'c', 'i', 'n', 'g', '-'] ++ (tok ++ [')'])) ++ [';'], rfl⟩

theorem runSub_head_low {α : Type} {mt : List Char → Option (α × List Char)} {rp : α → List Char}
    (hvstart : ∀ s p, mt s = some p → ∃ z, s = 'v' :: z)
    {s : List Char} {c : Char} {v : List Char}
    (h : runSub mt rp s = c :: v) (hc : isLow c = true) :
    ∃ d ds, s = d :: ds ∧ isLow d = true := by
  cases s with
  | nil => exact absurd h (by simp [runSub, subF])
  | cons d ds =>
    cases hmt : mt (d :: ds) with
    | some p =>
      obtain ⟨z, hz⟩ := hvstart _ _ hmt
      injection hz with h1 _
      exact ⟨d, ds, rfl, by rw [h1]; decide⟩
    | none =>
      rw [runSub_cons_none mt rp hmt] at h
      injection h with h1 _
      exact ⟨d, ds, rfl, by rw [h1]; exact hc⟩

theorem matchB1_vstart : ∀ (s : List Char) (p : List Char × List Char),
    matchB1 s = some p → ∃ z, s = 'v' :: z := by
  intro s p h
  obtain ⟨tok, rest⟩ := p
  obtain ⟨-, -, w, -, -, hs, -⟩ := matchB1_some h
  exact ⟨preTl ++ (tok ++ ')' :: (w ++ rest)), by rw [hs, pre_eq]; simp⟩

theorem matchB2_vstart : ∀ (s : List Char) (p : List Char × List Char),
    matchB2 s = some p → ∃ z, s = 'v' :: z := by
  intro s p h
  obtain ⟨tok, rest⟩ := p
  obtain ⟨-, -, ws, lo, -, -, hs⟩ := matchB2_some h
  exact ⟨preTl ++ (tok ++ ',' :: (ws ++ (pre ++ (tok ++ ')' :: (lo ++ ';' :: rest))))),
    by rw [hs, pre_eq]; simp⟩

/-- If rule 1's output begins with a bad occurrence, rule 1 would in fact
have matched there: impossible in the `none` branch of the scan. -/
theorem ruleB1_out_matches {s T : List Char} {c : Char} {v : List Char}
    (hT : T ≠ []) (hTt : ∀ x ∈ T, isTok x = true) (hc : isLow c = true)
    (h : ruleB1 s = pre ++ (T ++ ')' :: c :: v)) :
    ∃ p, matchB1 s = some p := by
  cases s with
  | nil =>
    exfalso
    rw [show ruleB1 [] = [] from rfl] at h
    rw [pre_eq] at h
    simp at h
  | cons a as =>
    cases hmt : matchB1 (a :: as) with
    | some p => exact ⟨p, rfl⟩
    | none =>
      exfalso
      rw [ruleB1_cons_none hmt] at h
      rw [pre_eq] at h
      simp only [List.cons_append] at h
      injection h with h1 h2
      obtain ⟨s₂, has, h₃⟩ :=
        runSub_outlit matchB1_lt refTokV preTl (by decide) as _ h2
      obtain ⟨s₃, hs₂, h₄⟩ := runSub_outtok matchB1_lt refTokV4 T hTt s₂ (c :: v) h₃
      obtain ⟨d, ds, hdds, hlowd⟩ := runSub_head_low matchB1_vstart h₄ hc
      subst hdds
      have hseq : (a :: as : List Char) = pre ++ (T ++ ')' :: d :: ds) := by
        rw [h1, has, hs₂, pre_eq]
        simp
      have hspan := matchB1_span hT hTt hlowd ds
      rw [← hseq] at hspan
      rw [hmt] at hspan
      exact absurd hspan (by simp)

/-- Rule 1's output never contains a clean reference immediately followed
by a lowercase letter. -/
theorem ruleB1_noBad_fuel : ∀ (n : Nat) (s : List Char), s.length ≤ n →
    ¬ hasBad (ruleB1 s) := by
  intro n
  induction n with
  | zero =>
    intro s hn hb
    have hs : s = [] := List.length_eq_zero.mp (Nat.le_zero.mp hn)
    subst hs
    obtain ⟨u, T, c, v, -, -, -, h4⟩ := hb
    rw [show ruleB1 [] = [] from rfl, pre_eq] at h4
    simp at h4
  | succ n ih =>
    intro s hn hb
    cases s with
    | nil =>
      obtain ⟨u, T, c, v, -, -, -, h4⟩ := hb
      rw [show ruleB1 [] = [] from rfl, pre_eq] at h4
      simp at h4
    | cons a as =>
      cases hmt : matchB1 (a :: as) with
      | none =>
        obtain ⟨u, T, c, v, h1, h2, h3, h4⟩ := hb
        rw [ruleB1_cons_none hmt] at h4
        cases u with
        | nil =>
          have h5 : ruleB1 (a :: as) = pre ++ (T ++ ')' :: c :: v) := by
            rw [ruleB1_cons_none hmt]
            simpa using h4
          obtain ⟨p, hp⟩ := ruleB1_out_matches h1 h2 h3 h5
          rw [hmt] at hp
          exact absurd hp (by simp)
        | cons u₀ u₁ =>
          simp only [List.cons_append] at h4
          injection h4 with _ h4
          exact ih as (by simp at hn; omega) ⟨u₁, T, c, v, h1, h2, h3, h4⟩
      | some p =>
        obtain ⟨tok, rest⟩ := p
        obtain ⟨u, T, c, v, h1, h2, h3, h4⟩ := hb
        rw [ruleB1_cons_some hmt] at h4
        obtain ⟨htokne, htokall, w, hwne, hwall, hshape, hresthead⟩ := matchB1_some hmt
        cases u with
        | nil =>
          have h5 : pre ++ (tok ++ ')' :: ruleB1 rest) = pre ++ (T ++ ')' :: (c :: v)) := by
            have : refTok tok ++ ruleB1 rest = pre ++ (tok ++ ')' :: ruleB1 rest) := by
              rw [refTok]; simp
            rw [← this]
            simpa using h4
          have h6 := List.append_cancel_left h5
          obtain ⟨hTtok, -, hrest⟩ := alnum_eq htokall h2 (by decide) (by decide) h6
          rcases hresthead with hrnil | ⟨r, rs, hrr, hrlow⟩
          · subst hrnil
            rw [show ruleB1 [] = [] from rfl] at hrest
            exact absurd hrest (by simp)
          · subst hrr
            cases hmt₂ : matchB1 (r :: rs) with
            | some p₂ =>
              obtain ⟨z, hz⟩ := matchB1_vstart _ _ hmt₂
              injection hz with hres _
              rw [hres] at hrlow
              exact absurd hrlow (by decide)
            | none =>
              rw [ruleB1_cons_none hmt₂] at hrest
              injection hrest with hres _
              rw [hres] at hrlow
              rw [h3] at hrlow
              exact absurd hrlow (by simp)
        | cons u₀ u₁ =>
          have h4' : refTok tok ++ ruleB1 rest =
              (u₀ :: u₁) ++ (pre ++ (T ++ ')' :: c :: v)) := by simpa using h4
          obtain ⟨u', -, hZ⟩ := refTok_peel htokall h4' (by simp)
          have hlen : rest.length ≤ n := by
            have := matchB1_lt _ _ hmt
            simp at this hn
            omega
          exact ih rest hlen ⟨u', T, c, v, h1, h2, h3, hZ⟩

theorem ruleB1_noBad (s : List Char) : ¬ hasBad (ruleB1 s) :=
  ruleB1_noBad_fuel s.length s (le_refl _)

/-- Rule 2 cannot create a bad occurrence: any bad occurrence in its
output reflects one already present in its input. -/
theorem ruleB2_keepsBad_fuel : ∀ (n : Nat) (t : List Char), t.length ≤ n →
    hasBad (ruleB2 t) → hasBad t := by
  intro n
  induction n with
  | zero =>
    intro t hn hb
    have ht : t = [] := List.length_eq_zero.mp (Nat.le_zero.mp hn)
    subst ht
    obtain ⟨u, T, c, v, -, -, -, h4⟩ := hb
    rw [show ruleB2 [] = [] from rfl, pre_eq] at h4
    simp at h4
  | succ n ih =>
    intro t hn hb
    cases t with
    | nil =>
      obtain ⟨u, T, c, v, -, -, -, h4⟩ := hb
      rw [show ruleB2 [] = [] from rfl, pre_eq] at h4
      simp at h4
    | cons a as =>
      cases hmt : matchB2 (a :: as) with
      | none =>
        obtain ⟨u, T, c, v, h1, h2, h3, h4⟩ := hb
        rw [ruleB2_cons_none hmt] at h4
        cases u with
        | nil =>
          simp only [List.nil_append] at h4
          rw [pre_eq] at h4
          simp only [List.cons_append] at h4
          injection h4 with ha h4
          obtain ⟨s₂, has, h₃⟩ :=
            runSub_outlit matchB2_lt refTokSemiV preTl (by decide) as _ h4
          obtain ⟨s₃, hs₂, h₄⟩ :=
            runSub_outtok matchB2_lt refTokSemiV4 T h2 s₂ (c :: v) h₃
          obtain ⟨d, ds, hdds, hlowd⟩ := runSub_head_low matchB2_vstart h₄ h3
          subst hdds
          refine ⟨[], T, d, ds, h1, h2, hlowd, ?_⟩
          rw [ha, has, hs₂, pre_eq]
          simp
        | cons u₀ u₁ =>
          simp only [List.cons_append] at h4
          injection h4 with ha h4
          have := ih as (by simp at hn; omega) ⟨u₁, T, c, v, h1, h2, h3, h4⟩
          have h5 := hasBad_lift [a] this
          simpa using h5
      | some p =>
        obtain ⟨tok, rest⟩ := p
        obtain ⟨u, T, c, v, h1, h2, h3, h4⟩ := hb
        rw [ruleB2_cons_some hmt] at h4
        obtain ⟨htokne, htokall, ws, lo, hwsall, hloall, hshape⟩ := matchB2_some hmt
        have h4' : refTok tok ++ (';' :: ruleB2 rest) =
            u ++ (pre ++ (T ++ ')' :: c :: v)) := by
          simpa using h4
        cases u with
        | nil =>
          exfalso
          have h5 : pre ++ (tok ++ ')' :: (';' :: ruleB2 rest)) =
              pre ++ (T ++ ')' :: (c :: v)) := by
            have : refTok tok ++ (';' :: ruleB2 rest) =
                pre ++ (tok ++ ')' :: (';' :: ruleB2 rest)) := by
              rw [refTok]; simp
            rw [← this]
            simpa using h4'
          have h6 := List.append_cancel_left h5
          obtain ⟨-, -, hsemi⟩ := alnum_eq htokall h2 (by decide) (by decide) h6
          injection hsemi with hcs _
          rw [← hcs] at h3
          exact absurd h3 (by decide)
        | cons u₀ u₁ =>
          obtain ⟨u', -, hZ⟩ := refTok_peel htokall h4' (by simp)
          cases u' with
          | nil =>
            exfalso
            rw [pre_eq] at hZ
            simp only [List.nil_append, List.cons_append] at hZ
            injection hZ with hsv _
            exact absurd hsv (by decide)
          | cons e u'' =>
            simp only [List.cons_append] at hZ
            injection hZ with _ hZ
            have hbadrest : hasBad (ruleB2 rest) := ⟨u'', T, c, v, h1, h2, h3, hZ⟩
            have hlen : rest.length ≤ n := by
              have := matchB2_lt _ _ hmt
              simp at this hn
              omega
            have hbr := ih rest hlen hbadrest
            have hW : (a :: as : List Char) =
                (pre ++ (tok ++ ',' :: (ws ++ (pre ++ (tok ++ ')' :: (lo ++ [';'])))))) ++
                  rest := by
              rw [hshape]
              simp
            rw [hW]
            exact hasBad_lift _ hbr

theorem ruleB2_keepsBad {t : List Char} (h : hasBad (ruleB2 t)) : hasBad t :=
  ruleB2_keepsBad_fuel t.length t (le_refl _) h

/-- Rule 3 matches only at a bad occurrence, so it is the identity on
texts without one. -/
theorem matchB3_hasBad {t : List Char}
    {g : List Char × List Char × List Char} {rest : List Char}
    (h : matchB3 t = some (g, rest)) : hasBad t := by
  obtain ⟨nm, ws, jj, s5, -, -, -, htokne, htokall, hshape, hj1, hj2, -⟩ := matchB3_some h
  have hs5 : ∃ d ds, s5 = d :: ds ∧ isLow d = true := by
    cases hs : s5 with
    | nil =>
      rw [hs] at hj2
      simp at hj2
      omega
    | cons d ds =>
      refine ⟨d, ds, rfl, ?_⟩
      by_contra hd
      have hd' : isLow d = false := by
        cases hv : isLow d
        · rfl
        · exact absurd hv hd
      rw [hs] at hj2
      rw [List.takeWhile_cons, hd'] at hj2
      simp at hj2
      omega
  obtain ⟨d, ds, hdds, hlowd⟩ := hs5
  refine ⟨nm ++ ':' :: ws, g.2.1, d, ds, htokne, htokall, hlowd, ?_⟩
  rw [hshape, hdds]
  simp

theorem ruleB3_id_fuel : ∀ (n : Nat) (t : List Char), t.length ≤ n →
    ¬ hasBad t → ruleB3 t = t := by
  intro n
  induction n with
  | zero =>
    intro t hn _
    have ht : t = [] := List.length_eq_zero.mp (Nat.le_zero.mp hn)
    subst ht
    rfl
  | succ n ih =>
    intro t hn hnb
    cases t with
    | nil => rfl
    | cons a as =>
      cases hmt : matchB3 (a :: as) with
      | some p =>
        obtain ⟨g, rest⟩ := p
        exact absurd (matchB3_hasBad hmt) hnb
      | none =>
        rw [ruleB3_cons_none hmt]
        have hnb' : ¬ hasBad as := by
          intro hb
          exact hnb (by simpa using hasBad_lift [a] hb)
        rw [ih as (by simp at hn; omega) hnb']

/-- The three-rule chain always collapses to rules 1 and 2: rule 1 leaves
no occurrence that rule 3 could match, and rule 2 creates none. -/
theorem chainB_collapse (s : List Char) :
    fixSpacingSyntax s = ruleB2 (ruleB1 s) := by
  unfold fixSpacingSyntax
  exact ruleB3_id_fuel (ruleB2 (ruleB1 s)).length _ (le_refl _)
    (fun hb => ruleB1_noBad s (ruleB2_keepsBad hb))

/-! ## Span overlap analysis for rules A and 2 -/

theorem isSpc_ne_v {c : Char} (h : isSpc c = true) : c ≠ 'v' := by
  intro hc
  rw [hc] at h
  exact absurd h (by decide)

theorem isLow_isTok {c : Char} (h : isLow c = true) : isTok c = true := by
  simp only [isLow] at h
  simp [isTok, h]

/-- Where can an occurrence of `var(--spacing-` sit relative to a rule A
match span `var(--spacing-tok,\s*var(--spacing-tok)`?  Only at the span
start, at the second `var(`, or wholly beyond the span. -/
theorem spanA_peel {tok ws : List Char}
    (htok : ∀ c ∈ tok, isTok c = true) (hws : ∀ c ∈ ws, isSpc c = true)
    {rest u z : List Char}
    (h : pre ++ (tok ++ ',' :: (ws ++ (pre ++ (tok ++ ')' :: rest)))) =
        u ++ (pre ++ z)) :
    (u = [] ∧ tok ++ ',' :: (ws ++ (pre ++ (tok ++ ')' :: rest))) = z) ∨
    (tok ++ ')' :: rest = z) ∨
    (∃ w, rest = w ++ (pre ++ z)) := by
  cases u with
  | nil =>
    have h' : pre ++ (tok ++ ',' :: (ws ++ (pre ++ (tok ++ ')' :: rest)))) = pre ++ z := by
      simpa using h
    exact Or.inl ⟨rfl, List.append_cancel_left h'⟩
  | cons d u₁ =>
    have h' : 'v' :: (preTl ++ (tok ++ ',' :: (ws ++ (pre ++ (tok ++ ')' :: rest))))) =
        d :: (u₁ ++ ('v' :: (preTl ++ z))) := by
      have e1 : pre ++ (tok ++ ',' :: (ws ++ (pre ++ (tok ++ ')' :: rest)))) =
          'v' :: (preTl ++ (tok ++ ',' :: (ws ++ (pre ++ (tok ++ ')' :: rest))))) := by
        rw [pre_eq]; simp
      have e2 : (d :: u₁) ++ (pre ++ z) = d :: (u₁ ++ ('v' :: (preTl ++ z))) := by
        rw [pre_eq]; simp
      rw [← e1, ← e2]
      exact h
    injection h' with hd h'
    obtain ⟨u₂, hu₂, h₂⟩ := nov_peel preTl (by decide) u₁ (preTl ++ z) _ h'
    have h₂' : tok ++ ',' :: (ws ++ (pre ++ (tok ++ ')' :: rest))) = u₂ ++ (pre ++ z) := by
      rw [h₂, pre_eq]
      simp
    obtain ⟨u₃, hu₃, h₃⟩ := tok_peel htok (by decide) (by decide) (by decide) (by decide)
      u₂ z _ h₂'
    have h₃' : ws ++ (pre ++ (tok ++ ')' :: rest)) = u₃ ++ 'v' :: (preTl ++ z) := by
      rw [h₃, pre_eq]
      simp
    obtain ⟨u₄, hu₄, h₄⟩ := nov_peel ws (fun c hc => isSpc_ne_v (hws c hc)) u₃ (preTl ++ z) _ h₃'
    cases u₄ with
    | nil =>
      refine Or.inr (Or.inl ?_)
      have h₅ : pre ++ (tok ++ ')' :: rest) = pre ++ z := by
        have e5 : pre ++ z = 'v' :: (preTl ++ z) := by rw [pre_eq]; simp
        rw [e5]
        simpa using h₄
      exact List.append_cancel_left h₅
    | cons e u₅ =>
      refine Or.inr (Or.inr ?_)
      have h₅ : 'v' :: (preTl ++ (tok ++ ')' :: rest)) = e :: (u₅ ++ ('v' :: (preTl ++ z))) := by
        have e3 : pre ++ (tok ++ ')' :: rest) =
            'v' :: (preTl ++ (tok ++ ')' :: rest)) := by
          rw [pre_eq]; simp
        have e4 : (e :: u₅) ++ ('v' :: (preTl ++ z)) =
            e :: (u₅ ++ ('v' :: (preTl ++ z))) := by simp
        rw [← e3, ← e4]
        exact h₄
      injection h₅ with he h₅
      obtain ⟨u₆, hu₆, h₆⟩ := nov_peel preTl (by decide) u₅ (preTl ++ z) _ h₅
      have h₆' : tok ++ ')' :: rest = u₆ ++ (pre ++ z) := by
        rw [h₆, pre_eq]
        simp
      obtain ⟨u₇, hu₇, h₇⟩ := tok_peel htok (by decide) (by decide) (by decide) (by decide)
        u₆ z _ h₆'
      exact ⟨u₇, h₇⟩

/-- Same analysis for a rule 2 match span
`var(--spacing-tok,\s*var(--spacing-tok)[a-z]*;`. -/
theorem spanB2_peel {tok ws lo : List Char}
    (htok : ∀ c ∈ tok, isTok c = true) (hws : ∀ c ∈ ws, isSpc c = true)
    (hlo : ∀ c ∈ lo, isLow c = true)
    {rest u z : List Char}
    (h : pre ++ (tok ++ ',' :: (ws ++ (pre ++ (tok ++ ')' :: (lo ++ ';' :: rest))))) =
        u ++ (pre ++ z)) :
    (u = [] ∧ tok ++ ',' :: (ws ++ (pre ++ (tok ++ ')' :: (lo ++ ';' :: rest)))) = z) ∨
    (tok ++ ')' :: (lo ++ ';' :: rest) = z) ∨
    (∃ w, rest = w ++ (pre ++ z)) := by
  cases u with
  | nil =>
    have h' : pre ++ (tok ++ ',' :: (ws ++ (pre ++ (tok ++ ')' :: (lo ++ ';' :: rest))))) =
        pre ++ z := by simpa using h
    exact Or.inl ⟨rfl, List.append_cancel_left h'⟩
  | cons d u₁ =>
    have h' : 'v' :: (preTl ++ (tok ++ ',' ::
        (ws ++ (pre ++ (tok ++ ')' :: (lo ++ ';' :: rest)))))) =
        d :: (u₁ ++ ('v' :: (preTl ++ z))) := by
      have e1 : pre ++ (tok ++ ',' :: (ws ++ (pre ++ (tok ++ ')' :: (lo ++ ';' :: rest))))) =
          'v' :: (preTl ++ (tok ++ ',' ::
            (ws ++ (pre ++ (tok ++ ')' :: (lo ++ ';' :: rest)))))) := by
        rw [pre_eq]; simp
      have e2 : (d :: u₁) ++ (pre ++ z) = d :: (u₁ ++ ('v' :: (preTl ++ z))) := by
        rw [pre_eq]; simp
      rw [← e1, ← e2]
      exact h
    injection h' with hd h'
    obtain ⟨u₂, hu₂, h₂⟩ := nov_peel preTl (by decide) u₁ (preTl ++ z) _ h'
    have h₂' : tok ++ ',' :: (ws ++ (pre ++ (tok ++ ')' :: (lo ++ ';' :: rest)))) =
        u₂ ++ (pre ++ z) := by
      rw [h₂, pre_eq]
      simp
    obtain ⟨u₃, hu₃, h₃⟩ := tok_peel htok (by decide) (by decide) (by decide) (by decide)
      u₂ z _ h₂'
    have h₃' : ws ++ (pre ++ (tok ++ ')' :: (lo ++ ';' :: rest))) =
        u₃ ++ 'v' :: (preTl ++ z) := by
      rw [h₃, pre_eq]
      simp
    obtain ⟨u₄, hu₄, h₄⟩ := nov_peel ws (fun c hc => isSpc_ne_v (hws c hc)) u₃ (preTl ++ z) _ h₃'
    cases u₄ with
    | nil =>
      refine Or.inr (Or.inl ?_)
      have h₅ : pre ++ (tok ++ ')' :: (lo ++ ';' :: rest)) = pre ++ z := by
        have e5 : pre ++ z = 'v' :: (preTl ++ z) := by rw [pre_eq]; simp
        rw [e5]
        simpa using h₄
      exact List.append_cancel_left h₅
    | cons e u₅ =>
      refine Or.inr (Or.inr ?_)
      have h₅ : 'v' :: (preTl ++ (tok ++ ')' :: (lo ++ ';' :: rest))) =
          e :: (u₅ ++ ('v' :: (preTl ++ z))) := by
        have e3 : pre ++ (tok ++ ')' :: (lo ++ ';' :: rest)) =
            'v' :: (preTl ++ (tok ++ ')' :: (lo ++ ';' :: rest))) := by
          rw [pre_eq]; simp
        have e4 : (e :: u₅) ++ ('v' :: (preTl ++ z)) =
            e :: (u₅ ++ ('v' :: (preTl ++ z))) := by simp
        rw [← e3, ← e4]
        exact h₄
      injection h₅ with he h₅
      obtain ⟨u₆, hu₆, h₆⟩ := nov_peel preTl (by decide) u₅ (preTl ++ z) _ h₅
      have h₆' : tok ++ ')' :: (lo ++ ';' :: rest) = u₆ ++ (pre ++ z) := by
        rw [h₆, pre_eq]
        simp
      obtain ⟨u₇, hu₇, h₇⟩ := tok_peel htok (by decide) (by decide) (by decide) (by decide)
        u₆ z _ h₆'
      obtain ⟨u₈, hu₈, h₈⟩ := tok_peel (fun c hc => isLow_isTok (hlo c hc))
        (by decide) (by decide) (by decide) (by decide) u₇ z _ h₇
      exact ⟨u₈, h₈⟩

/-- Rule A copies a clean reference verbatim: no match can start at or
inside `var(--spacing-X)` when the token is followed by `)`. -/
theorem ruleA_walk_ref {X : List Char} (hX : ∀ c ∈ X, isTok c = true) (t : List Char) :
    ruleA (pre ++ (X ++ ')' :: t)) = pre ++ (X ++ ')' :: ruleA t) := by
  have h0 : matchA (pre ++ (X ++ ')' :: t)) = none := matchA_none_ref hX t
  have e1 : pre ++ (X ++ ')' :: t) = 'v' :: (preTl ++ ((X ++ [')']) ++ t)) := by
    rw [pre_eq]; simp
  rw [e1] at h0
  have step1 : ruleA ('v' :: (preTl ++ ((X ++ [')']) ++ t))) =
      'v' :: ruleA (preTl ++ ((X ++ [')']) ++ t)) := ruleA_cons_none h0
  have step2 : ruleA (preTl ++ ((X ++ [')']) ++ t)) =
      preTl ++ ruleA ((X ++ [')']) ++ t) :=
    walk_nov (fun c t' hc => matchA_none_head hc t') preTl (by decide) _
  have step3 : ruleA ((X ++ [')']) ++ t) = (X ++ [')']) ++ ruleA t :=
    walk_tokdel hX
      (fun tk' htk' r => matchA_none_tok htk' (by decide) (by decide) (by decide) (by decide) r) t
  rw [e1, step1, step2, step3, pre_eq]
  simp

theorem ruleB2_walk_ref {X : List Char} (hX : ∀ c ∈ X, isTok c = true) (t : List Char) :
    ruleB2 (pre ++ (X ++ ')' :: t)) = pre ++ (X ++ ')' :: ruleB2 t) := by
  have h0 : matchB2 (pre ++ (X ++ ')' :: t)) = none := matchB2_none_ref hX t
  have e1 : pre ++ (X ++ ')' :: t) = 'v' :: (preTl ++ ((X ++ [')']) ++ t)) := by
    rw [pre_eq]; simp
  rw [e1] at h0
  have step1 : ruleB2 ('v' :: (preTl ++ ((X ++ [')']) ++ t))) =
      'v' :: ruleB2 (preTl ++ ((X ++ [')']) ++ t)) := ruleB2_cons_none h0
  have step2 : ruleB2 (preTl ++ ((X ++ [')']) ++ t)) =
      preTl ++ ruleB2 ((X ++ [')']) ++ t) :=
    walk_nov (fun c t' hc => matchB2_none_head hc t') preTl (by decide) _
  have step3 : ruleB2 ((X ++ [')']) ++ t) = (X ++ [')']) ++ ruleB2 t :=
    walk_tokdel hX
      (fun tk' htk' r => matchB2_none_tok htk' (by decide) (by decide) (by decide) (by decide) r) t
  rw [e1, step1, step2, step3, pre_eq]
  simp

/-- The back-reference `\1` fails when the two tokens differ: either the
literal comparison fails outright, or the following `)` does. -/
theorem backref_fail : ∀ (X Y : List Char), (∀ c ∈ X, isTok c = true) →
    (∀ c ∈ Y, isTok c = true) → X ≠ Y → ∀ (t : List Char),
    dropLit X (Y ++ ')' :: t) = none ∨
      ∃ s6, dropLit X (Y ++ ')' :: t) = some s6 ∧ dropLit [')'] s6 = none
  | [], Y, _, hY, hXY, t => by
    right
    refine ⟨Y ++ ')' :: t, rfl, ?_⟩
    cases Y with
    | nil => exact absurd rfl hXY
    | cons y Y' =>
      have hy : isTok y = true := hY y (by simp)
      have hyne : ¬ y = ')' := by
        intro h
        rw [h] at hy
        exact absurd hy (by decide)
      simp [dropLit, hyne]
  | x :: X', Y, hX, hY, hXY, t => by
    cases Y with
    | nil =>
      left
      have hx : isTok x = true := hX x (by simp)
      have hxne : ¬ (')' = x) := by
        intro h
        rw [← h] at hx
        exact absurd hx (by decide)
      simp [dropLit, hxne]
    | cons y Y' =>
      by_cases hxy : y = x
      · subst hxy
        have hXY' : X' ≠ Y' := fun h => hXY (by rw [h])
        have hrec := backref_fail X' Y' (fun c hc => hX c (by simp [hc]))
          (fun c hc => hY c (by simp [hc])) hXY' t
        rcases hrec with h | ⟨s6, h1, h2⟩
        · left
          simpa [dropLit] using h
        · right
          exact ⟨s6, by simpa [dropLit] using h1, h2⟩
      · left
        simp [dropLit, hxy]

theorem matchA_none_backref {X Y : List Char} (hX1 : X ≠ [])
    (hX : ∀ c ∈ X, isTok c = true) (hY : ∀ c ∈ Y, isTok c = true) (hXY : X ≠ Y)
    (t : List Char) :
    matchA (pre ++ (X ++ ',' :: (' ' :: (pre ++ (Y ++ ')' :: t))))) = none := by
  have ht := takeWhile_append_eq isTok X hX ',' (' ' :: (pre ++ (Y ++ ')' :: t))) (by decide)
  have hsp := takeWhile_append_eq isSpc [' '] (by decide) 'v'
    (preTl ++ (Y ++ ')' :: t)) (by decide)
  have e : (' ' :: (pre ++ (Y ++ ')' :: t))) =
      [' '] ++ ('v' :: (preTl ++ (Y ++ ')' :: t))) := by
    rw [pre_eq]; simp
  unfold matchA
  rw [dropLit_self]
  simp only []
  rw [ht.1, if_neg hX1, ht.2, dropLit_one]
  simp only []
  rw [e, hsp.2, dropLit_pre_cons]
  simp only []
  rcases backref_fail X Y hX hY hXY t with h | ⟨s6, h1, h2⟩
  · rw [h]
  · rw [h1]
    simp only []
    rw [h2]

theorem matchB2_none_backref {X Y : List Char} (hX1 : X ≠ [])
    (hX : ∀ c ∈ X, isTok c = true) (hY : ∀ c ∈ Y, isTok c = true) (hXY : X ≠ Y)
    (t : List Char) :
    matchB2 (pre ++ (X ++ ',' :: (' ' :: (pre ++ (Y ++ ')' :: t))))) = none := by
  have ht := takeWhile_append_eq isTok X hX ',' (' ' :: (pre ++ (Y ++ ')' :: t))) (by decide)
  have hsp := takeWhile_append_eq isSpc [' '] (by decide) 'v'
    (preTl ++ (Y ++ ')' :: t)) (by decide)
  have e : (' ' :: (pre ++ (Y ++ ')' :: t))) =
      [' '] ++ ('v' :: (preTl ++ (Y ++ ')' :: t))) := by
    rw [pre_eq]; simp
  unfold matchB2
  rw [dropLit_self]
  simp only []
  rw [ht.1, if_neg hX1, ht.2, dropLit_one]
  simp only []
  rw [e, hsp.2, dropLit_pre_cons]
  simp only []
  rcases backref_fail X Y hX hY hXY t with h | ⟨s6, h1, h2⟩
  · rw [h]
  · rw [h1]
    simp only []
    rw [h2]

/-- Rule A preserves every occurrence of a clean reference
`var(--spacing-X)`: the only way a match can overlap such an occurrence
is with an identical token, whose replacement reinstates it. -/
theorem ruleA_keeps_ref_fuel : ∀ (n : Nat) (s : List Char), s.length ≤ n →
    ∀ (X u v : List Char), X ≠ [] → (∀ c ∈ X, isTok c = true) →
    s = u ++ (pre ++ (X ++ ')' :: v)) →
    ∃ u' v', ruleA s = u' ++ (pre ++ (X ++ ')' :: v')) := by
  intro n
  induction n with
  | zero =>
    intro s hn X u v hX1 hX hs
    have h0 : s = [] := List.length_eq_zero.mp (Nat.le_zero.mp hn)
    subst h0
    exfalso
    rw [pre_eq] at hs
    simp at hs
  | succ n ih =>
    intro s hn X u v hX1 hX hs
    cases s with
    | nil =>
      exfalso
      rw [pre_eq] at hs
      simp at hs
    | cons a as =>
      cases hmt : matchA (a :: as) with
      | none =>
        cases u with
        | nil =>
          simp only [List.nil_append] at hs
          rw [hs, ruleA_walk_ref hX v]
          exact ⟨[], ruleA v, by simp⟩
        | cons b u₁ =>
          have hb : a = b ∧ as = u₁ ++ (pre ++ (X ++ ')' :: v)) := by simpa using hs
          obtain ⟨u', v', hout⟩ := ih as (by simp at hn; omega) X u₁ v hX1 hX hb.2
          rw [ruleA_cons_none hmt, hout]
          exact ⟨a :: u', v', by simp⟩
      | some p =>
        obtain ⟨tok, rest⟩ := p
        obtain ⟨htokne, htokall, ws, hwsall, hshape⟩ := matchA_some hmt
        rw [ruleA_cons_some hmt]
        have heq : pre ++ (tok ++ ',' :: (ws ++ (pre ++ (tok ++ ')' :: rest)))) =
            u ++ (pre ++ (X ++ ')' :: v)) := by
          rw [← hshape]
          exact hs
        rcases spanA_peel htokall hwsall heq with ⟨-, hz⟩ | hz | ⟨w, hw⟩
        · exfalso
          obtain ⟨-, hc, -⟩ := alnum_eq htokall hX (by decide) (by decide) hz
          exact absurd hc (by decide)
        · obtain ⟨htX, -, -⟩ := alnum_eq htokall hX (by decide) (by decide) hz
          refine ⟨[], ruleA rest, ?_⟩
          rw [htX]
          simp [refTok]
        · obtain ⟨u', v', hout⟩ :=
            ih rest (by have := matchA_lt _ _ hmt; simp at this hn; omega) X w v hX1 hX hw
          rw [hout]
          exact ⟨refTok tok ++ u', v', by simp⟩

theorem ruleA_keeps_ref {s X u v : List Char} (hX1 : X ≠ [])
    (hX : ∀ c ∈ X, isTok c = true) (hs : s = u ++ (pre ++ (X ++ ')' :: v))) :
    ∃ u' v', ruleA s = u' ++ (pre ++ (X ++ ')' :: v')) :=
  ruleA_keeps_ref_fuel s.length s (le_refl _) X u v hX1 hX hs

/-! ## A fallback shape with two different tokens is inert -/

theorem mixG_append (X Y v : List Char) :
    mixG X Y ++ v = pre ++ (X ++ ',' :: (' ' :: (pre ++ (Y ++ ')' :: v)))) := by
  unfold mixG
  simp

theorem ruleA_walk_mixG {X Y : List Char} (hX1 : X ≠ [])
    (hX : ∀ c ∈ X, isTok c = true) (hY : ∀ c ∈ Y, isTok c = true) (hXY : X ≠ Y)
    (t : List Char) :
    ruleA (mixG X Y ++ t) = mixG X Y ++ ruleA t := by
  rw [mixG_append]
  have h0 := matchA_none_backref hX1 hX hY hXY t
  have e1 : pre ++ (X ++ ',' :: (' ' :: (pre ++ (Y ++ ')' :: t)))) =
      'v' :: (preTl ++ ((X ++ [',']) ++ ([' '] ++ (pre ++ (Y ++ ')' :: t))))) := by
    rw [pre_eq]
    simp
  rw [e1] at h0
  have step1 := ruleA_cons_none h0
  have step2 : ruleA (preTl ++ ((X ++ [',']) ++ ([' '] ++ (pre ++ (Y ++ ')' :: t))))) =
      preTl ++ ruleA ((X ++ [',']) ++ ([' '] ++ (pre ++ (Y ++ ')' :: t)))) :=
    walk_nov (fun c t' hc => matchA_none_head hc t') preTl (by decide) _
  have step3 : ruleA ((X ++ [',']) ++ ([' '] ++ (pre ++ (Y ++ ')' :: t)))) =
      (X ++ [',']) ++ ruleA ([' '] ++ (pre ++ (Y ++ ')' :: t))) :=
    walk_tokdel hX
      (fun tk' htk' r => matchA_none_tok htk' (by decide) (by decide) (by decide) (by decide) r) _
  have step4 : ruleA ([' '] ++ (pre ++ (Y ++ ')' :: t))) =
      [' '] ++ ruleA (pre ++ (Y ++ ')' :: t)) :=
    walk_nov (fun c t' hc => matchA_none_head hc t') [' '] (by decide) _
  have step5 := ruleA_walk_ref hY t
  rw [e1, step1, step2, step3, step4, step5, mixG_append, pre_eq]
  simp

theorem ruleB2_walk_mixG {X Y : List Char} (hX1 : X ≠ [])
    (hX : ∀ c ∈ X, isTok c = true) (hY : ∀ c ∈ Y, isTok c = true) (hXY : X ≠ Y)
    (t : List Char) :
    ruleB2 (mixG X Y ++ t) = mixG X Y ++ ruleB2 t := by
  rw [mixG_append]
  have h0 := matchB2_none_backref hX1 hX hY hXY t
  have e1 : pre ++ (X ++ ',' :: (' ' :: (pre ++ (Y ++ ')' :: t)))) =
      'v' :: (preTl ++ ((X ++ [',']) ++ ([' '] ++ (pre ++ (Y ++ ')' :: t))))) := by
    rw [pre_eq]
    simp
  rw [e1] at h0
  have step1 := ruleB2_cons_none h0
  have step2 : ruleB2 (preTl ++ ((X ++ [',']) ++ ([' '] ++ (pre ++ (Y ++ ')' :: t))))) =
      preTl ++ ruleB2 ((X ++ [',']) ++ ([' '] ++ (pre ++ (Y ++ ')' :: t)))) :=
    walk_nov (fun c t' hc => matchB2_none_head hc t') preTl (by decide) _
  have step3 : ruleB2 ((X ++ [',']) ++ ([' '] ++ (pre ++ (Y ++ ')' :: t)))) =
      (X ++ [',']) ++ ruleB2 ([' '] ++ (pre ++ (Y ++ ')' :: t))) :=
    walk_tokdel hX
      (fun tk' htk' r => matchB2_none_tok htk' (by decide) (by decide) (by decide) (by decide) r) _
  have step4 : ruleB2 ([' '] ++ (pre ++ (Y ++ ')' :: t))) =
      [' '] ++ ruleB2 (pre ++ (Y ++ ')' :: t)) :=
    walk_nov (fun c t' hc => matchB2_none_head hc t') [' '] (by decide) _
  have step5 := ruleB2_walk_ref hY t
  rw [e1, step1, step2, step3, step4, step5, mixG_append, pre_eq]
  simp

theorem gA_overlap {tok ws X Y : List Char}
    (htok : ∀ c ∈ tok, isTok c = true) (hws : ∀ c ∈ ws, isSpc c = true)
    (hX : ∀ c ∈ X, isTok c = true) (hY : ∀ c ∈ Y, isTok c = true) (hXY : X ≠ Y)
    {rest u v : List Char}
    (h : pre ++ (tok ++ ',' :: (ws ++ (pre ++ (tok ++ ')' :: rest)))) =
        u ++ (mixG X Y ++ v)) :
    ∃ w, rest = w ++ (mixG X Y ++ v) := by
  rw [mixG_append] at h
  rcases spanA_peel htok hws h with ⟨-, hz⟩ | hz | ⟨w, hw⟩
  · exfalso
    obtain ⟨htX, -, htail⟩ := alnum_eq htok hX (by decide) (by decide) hz
    cases ws with
    | nil =>
      rw [pre_eq] at htail
      simp only [List.nil_append, List.cons_append, List.cons.injEq] at htail
      exact absurd htail.1 (by decide)
    | cons sp ws' =>
      simp only [List.cons_append, List.cons.injEq] at htail
      obtain ⟨-, htail⟩ := htail
      cases ws' with
      | nil =>
        simp only [List.nil_append] at htail
        have hc := List.append_cancel_left htail
        obtain ⟨htY, -, -⟩ := alnum_eq htok hY (by decide) (by decide) hc
        exact hXY (by rw [← htX]; exact htY)
      | cons sp2 ws'' =>
        rw [pre_eq] at htail
        simp only [List.cons_append, List.cons.injEq] at htail
        have hsp2 := hws sp2 (by simp)
        exact absurd htail.1 (isSpc_ne_v hsp2)
  · exfalso
    obtain ⟨-, hc, -⟩ := alnum_eq htok hX (by decide) (by decide) hz
    exact absurd hc (by decide)
  · exact ⟨w, by rw [mixG_append]; exact hw⟩

theorem gB2_overlap {tok ws lo X Y : List Char}
    (htok : ∀ c ∈ tok, isTok c = true) (hws : ∀ c ∈ ws, isSpc c = true)
    (hlo : ∀ c ∈ lo, isLow c = true)
    (hX : ∀ c ∈ X, isTok c = true) (hY : ∀ c ∈ Y, isTok c = true) (hXY : X ≠ Y)
    {rest u v : List Char}
    (h : pre ++ (tok ++ ',' :: (ws ++ (pre ++ (tok ++ ')' :: (lo ++ ';' :: rest))))) =
        u ++ (mixG X Y ++ v)) :
    ∃ w, rest = w ++ (mixG X Y ++ v) := by
  rw [mixG_append] at h
  rcases spanB2_peel htok hws hlo h with ⟨-, hz⟩ | hz | ⟨w, hw⟩
  · exfalso
    obtain ⟨htX, -, htail⟩ := alnum_eq htok hX (by decide) (by decide) hz
    cases ws with
    | nil =>
      rw [pre_eq] at htail
      simp only [List.nil_append, List.cons_append, List.cons.injEq] at htail
      exact absurd htail.1 (by decide)
    | cons sp ws' =>
      simp only [List.cons_append, List.cons.injEq] at htail
      obtain ⟨-, htail⟩ := htail
      cases ws' with
      | nil =>
        simp only [List.nil_append] at htail
        have hc := List.append_cancel_left htail
        obtain ⟨htY, -, -⟩ := alnum_eq htok hY (by decide) (by decide) hc
        exact hXY (by rw [← htX]; exact htY)
      | cons sp2 ws'' =>
        rw [pre_eq] at htail
        simp only [List.cons_append, List.cons.injEq] at htail
        have hsp2 := hws sp2 (by simp)
        exact absurd htail.1 (isSpc_ne_v hsp2)
  · exfalso
    obtain ⟨-, hc, -⟩ := alnum_eq htok hX (by decide) (by decide) hz
    exact absurd hc (by decide)
  · exact ⟨w, by rw [mixG_append]; exact hw⟩

theorem ruleA_keeps_mixG_fuel : ∀ (n : Nat) (s : List Char), s.length ≤ n →
    ∀ (X Y u v : List Char), X ≠ [] → (∀ c ∈ X, isTok c = true) →
    (∀ c ∈ Y, isTok c = true) → X ≠ Y →
    s = u ++ (mixG X Y ++ v) →
    ∃ u' v', ruleA s = u' ++ (mixG X Y ++ v') := by
  intro n
  induction n with
  | zero =>
    intro s hn X Y u v hX1 hX hY hXY hs
    have h0 : s = [] := List.length_eq_zero.mp (Nat.le_zero.mp hn)
    subst h0
    exfalso
    rw [mixG_append, pre_eq] at hs
    simp at hs
  | succ n ih =>
    intro s hn X Y u v hX1 hX hY hXY hs
    cases s with
    | nil =>
      exfalso
      rw [mixG_append, pre_eq] at hs
      simp at hs
    | cons a as =>
      cases hmt : matchA (a :: as) with
      | none =>
        cases u with
        | nil =>
          simp only [List.nil_append] at hs
          rw [hs, ruleA_walk_mixG hX1 hX hY hXY v]
          exact ⟨[], ruleA v, by simp⟩
        | cons b u₁ =>
          have hb : a = b ∧ as = u₁ ++ (mixG X Y ++ v) := by simpa using hs
          obtain ⟨u', v', hout⟩ := ih as (by simp at hn; omega) X Y u₁ v hX1 hX hY hXY hb.2
          rw [ruleA_cons_none hmt, hout]
          exact ⟨a :: u', v', by simp⟩
      | some p =>
        obtain ⟨tok, rest⟩ := p
        obtain ⟨htokne, htokall, ws, hwsall, hshape⟩ := matchA_some hmt
        rw [ruleA_cons_some hmt]
        have heq : pre ++ (tok ++ ',' :: (ws ++ (pre ++ (tok ++ ')' :: rest)))) =
            u ++ (mixG X Y ++ v) := by
          rw [← hshape]
          exact hs
        obtain ⟨w, hw⟩ := gA_overlap htokall hwsall hX hY hXY heq
        obtain ⟨u', v', hout⟩ :=
          ih rest (by have := matchA_lt _ _ hmt; simp at this hn; omega) X Y w v hX1 hX hY hXY hw
        rw [hout]
        exact ⟨refTok tok ++ u', v', by simp⟩

theorem ruleB2_keeps_mixG_fuel : ∀ (n : Nat) (s : List Char), s.length ≤ n →
    ∀ (X Y u v : List Char), X ≠ [] → (∀ c ∈ X, isTok c = true) →
    (∀ c ∈ Y, isTok c = true) → X ≠ Y →
    s = u ++ (mixG X Y ++ v) →
    ∃ u' v', ruleB2 s = u' ++ (mixG X Y ++ v') := by
  intro n
  induction n with
  | zero =>
    intro s hn X Y u v hX1 hX hY hXY hs
    have h0 : s = [] := List.length_eq_zero.mp (Nat.le_zero.mp hn)
    subst h0
    exfalso
    rw [mixG_append, pre_eq] at hs
    simp at hs
  | succ n ih =>
    intro s hn X Y u v hX1 hX hY hXY hs
    cases s with
    | nil =>
      exfalso
      rw [mixG_append, pre_eq] at hs
      simp at hs
    | cons a as =>
      cases hmt : matchB2 (a :: as) with
      | none =>
        cases u with
        | nil =>
          simp only [List.nil_append] at hs
          rw [hs, ruleB2_walk_mixG hX1 hX hY hXY v]
          exact ⟨[], ruleB2 v, by simp⟩
        | cons b u₁ =>
          have hb : a = b ∧ as = u₁ ++ (mixG X Y ++ v) := by simpa using hs
          obtain ⟨u', v', hout⟩ := ih as (by simp at hn; omega) X Y u₁ v hX1 hX hY hXY hb.2
          rw [ruleB2_cons_none hmt, hout]
          exact ⟨a :: u', v', by simp⟩
      | some p =>
        obtain ⟨tok, rest⟩ := p
        obtain ⟨htokne, htokall, ws, lo, hwsall, hloall, hshape⟩ := matchB2_some hmt
        rw [ruleB2_cons_some hmt]
        have heq : pre ++ (tok ++ ',' :: (ws ++ (pre ++ (tok ++ ')' :: (lo ++ ';' :: rest))))) =
            u ++ (mixG X Y ++ v) := by
          rw [← hshape]
          exact hs
        obtain ⟨w, hw⟩ := gB2_overlap htokall hwsall hloall hX hY hXY heq
        obtain ⟨u', v', hout⟩ :=
          ih rest (by have := matchB2_lt _ _ hmt; simp at this hn; omega) X Y w v hX1 hX hY hXY hw
        rw [hout]
        exact ⟨(refTok tok ++ [';']) ++ u', v', by simp⟩

/-! ## Run loop lemmas -/

theorem processOne_missing {fix : List Char → List Char}
    {fs : String → Option (List Char)} {p : String} (h : fs p = none) :
    processOne fix fs p = (fs, Report.notFound p, 0) := by
  unfold processOne
  rw [h]

theorem processOne_changed {fix : List Char → List Char}
    {fs : String → Option (List Char)} {p : String} {c : List Char}
    (h : fs p = some c) (hch : fix c ≠ c) :
    processOne fix fs p =
      ((fun q => if q = p then some (fix c) else fs q), Report.fixed p, 1) := by
  unfold processOne
  rw [h]
  simp only []
  rw [if_pos hch]

theorem processOne_same {fix : List Char → List Char}
    {fs : String → Option (List Char)} {p : String} {c : List Char}
    (h : fs p = some c) (hch : fix c = c) :
    processOne fix fs p = (fs, Report.noChanges p, 0) := by
  unfold processOne
  rw [h]
  simp only []
  rw [if_neg (by simp [hch])]

theorem processOne_fs_none {fix : List Char → List Char}
    {fs : String → Option (List Char)} {p q : String} (h : fs q = none) :
    (processOne fix fs p).1 q = none := by
  unfold processOne
  cases hp : fs p with
  | none => exact h
  | some content =>
    simp only []
    split
    · simp only []
      by_cases hq : q = p
      · rw [hq] at h
        rw [h] at hp
        exact absurd hp (by simp)
      · simp [hq, h]
    · exact h

theorem processOne_fs_other {fix : List Char → List Char}
    {fs : String → Option (List Char)} {p q : String} (h : q ≠ p) :
    (processOne fix fs p).1 q = fs q := by
  unfold processOne
  cases hp : fs p with
  | none => rfl
  | some content =>
    simp only []
    split
    · simp [h]
    · rfl

theorem processOne_coherent (fix : List Char → List Char)
    (fs : String → Option (List Char)) (p : String) :
    (processOne fix fs p).2.2 =
      if Report.isFixedR (processOne fix fs p).2.1 then 1 else 0 := by
  unfold processOne
  cases fs p with
  | none => simp [Report.isFixedR]
  | some content =>
    simp only []
    split <;> simp [Report.isFixedR]

theorem processOne_fixed_name {fix : List Char → List Char}
    {fs : String → Option (List Char)} {p x : String}
    (h : (processOne fix fs p).2.1 = Report.fixed x) : x = p := by
  unfold processOne at h
  cases hfp : fs p with
  | none =>
    rw [hfp] at h
    simp only [] at h
    exact absurd h (by simp)
  | some content =>
    rw [hfp] at h
    simp only [] at h
    split at h
    · injection h with h'
      exact h'.symm
    · exact absurd h (by simp)

theorem runScript_reports_length (fix : List Char → List Char) :
    ∀ (paths : List String) (fs : String → Option (List Char)),
      (runScript fix paths fs).reports.length = paths.length
  | [], _ => rfl
  | p :: ps, fs => by
    simp only [runScript, List.length_cons]
    rw [runScript_reports_length fix ps]

theorem runScript_fs_not_mem (fix : List Char → List Char) :
    ∀ (paths : List String) (fs : String → Option (List Char)) (q : String),
      q ∉ paths → (runScript fix paths fs).fs q = fs q
  | [], _, _, _ => rfl
  | p :: ps, fs, q, hq => by
    simp only [runScript]
    rw [runScript_fs_not_mem fix ps _ q (fun h => hq (by simp [h]))]
    exact processOne_fs_other (fun h => hq (by simp [h]))

theorem runScript_fs_none (fix : List Char → List Char) :
    ∀ (paths : List String) (fs : String → Option (List Char)) (q : String),
      fs q = none → (runScript fix paths fs).fs q = none
  | [], _, _, h => h
  | p :: ps, fs, q, h => by
    simp only [runScript]
    exact runScript_fs_none fix ps _ q (processOne_fs_none h)

theorem runScript_count (fix : List Char → List Char) :
    ∀ (paths : List String) (fs : String → Option (List Char)),
      (runScript fix paths fs).fixes =
        (runScript fix paths fs).reports.countP Report.isFixedR
  | [], _ => rfl
  | p :: ps, fs => by
    simp only [runScript, List.countP_cons]
    rw [runScript_count fix ps, processOne_coherent fix fs p]
    exact Nat.add_comm _ _

theorem runScript_notFound_mem (fix : List Char → List Char) :
    ∀ (paths : List String) (fs : String → Option (List Char)) (p : String),
      p ∈ paths → fs p = none →
      Report.notFound p ∈ (runScript fix paths fs).reports
  | [], _, _, hmem, _ => absurd hmem (by simp)
  | q :: ps, fs, p, hmem, hnone => by
    simp only [runScript, List.mem_cons]
    rcases List.mem_cons.mp hmem with rfl | hmem'
    · left
      rw [processOne_missing hnone]
    · right
      exact runScript_notFound_mem fix ps _ p hmem' (processOne_fs_none hnone)

theorem runScript_no_fixed (fix : List Char → List Char) :
    ∀ (paths : List String) (fs : String → Option (List Char)) (p : String),
      fs p = none → Report.fixed p ∉ (runScript fix paths fs).reports
  | [], _, _, _ => by simp [runScript]
  | q :: ps, fs, p, hnone => by
    simp only [runScript, List.mem_cons]
    rintro (hhead | htail)
    · have hq : p = q := processOne_fixed_name hhead.symm
      rw [hq] at hnone
      cases hfsq : fs q with
      | none =>
        rw [processOne_missing hfsq] at hhead
        exact absurd hhead (by simp)
      | some c =>
        rw [hfsq] at hnone
        exact absurd hnone (by simp)
    · exact runScript_no_fixed fix ps _ p (processOne_fs_none hnone) htail

theorem runScript_fixed_mem (fix : List Char → List Char) :
    ∀ (paths : List String) (fs : String → Option (List Char)) (p : String),
      Report.fixed p ∈ (runScript fix paths fs).reports → p ∈ paths
  | [], _, _, h => absurd h (by simp [runScript])
  | q :: ps, fs, p, h => by
    simp only [runScript, List.mem_cons] at h
    rcases h with hhead | htail
    · simp [processOne_fixed_name hhead.symm]
    · simp [runScript_fixed_mem fix ps _ p htail]

theorem runScript_append (fix : List Char → List Char) :
    ∀ (l₁ l₂ : List String) (fs : String → Option (List Char)),
      runScript fix (l₁ ++ l₂) fs =
        ⟨(runScript fix l₂ (runScript fix l₁ fs).fs).fs,
         (runScript fix l₁ fs).reports ++ (runScript fix l₂ (runScript fix l₁ fs).fs).reports,
         (runScript fix l₁ fs).fixes + (runScript fix l₂ (runScript fix l₁ fs).fs).fixes⟩
  | [], l₂, fs => by simp [runScript]
  | p :: l₁, l₂, fs => by
    have e : (p :: l₁) ++ l₂ = p :: (l₁ ++ l₂) := rfl
    rw [e]
    simp only [runScript]
    rw [runScript_append fix l₁ l₂]
    simp [Nat.add_assoc]

theorem runSub_eq_self_iff {α : Type} {mt : List Char → Option (α × List Char)}
    {rp : α → List Char}
    (hst : ∀ s p, mt s = some p → (rp p.1).length + p.2.length < s.length) :
    ∀ (s : List Char), runSub mt rp s = s ↔ anyMatch mt s = false := by
  intro s
  constructor
  · intro h
    by_contra hc
    have hany : anyMatch mt s = true := by
      cases hv : anyMatch mt s
      · exact absurd hv hc
      · rfl
    have := runSub_length_lt hst s.length s (le_refl _) hany
    rw [h] at this
    omega
  · intro h
    induction s with
    | nil => rfl
    | cons c cs ih =>
      simp only [anyMatch, Bool.or_eq_false_iff] at h
      have hmt : mt (c :: cs) = none := by
        cases hv : mt (c :: cs)
        · rfl
        · rw [hv] at h
          simp at h
      rw [runSub_cons_none mt rp hmt, ih h.2]

/-! ## Remaining helper lemmas for the claims -/

/-- A text without a bad occurrence offers rule 3 no match anywhere. -/
theorem noBad_anyB3 : ∀ (t : List Char), ¬ hasBad t → anyMatch matchB3 t = false
  | [], _ => rfl
  | c :: cs, hnb => by
    have h1 : matchB3 (c :: cs) = none := by
      cases hmt : matchB3 (c :: cs) with
      | none => rfl
      | some p =>
        obtain ⟨g, rest⟩ := p
        exact absurd (matchB3_hasBad hmt) hnb
    have h2 : ¬ hasBad cs := fun hb => hnb (by simpa using hasBad_lift [c] hb)
    simp only [anyMatch, h1, Option.isSome_none, Bool.false_or]
    exact noBad_anyB3 cs h2

/-- Rule 1 on a text that IS the malformed-fallback-with-suffix occurrence:
the leading reference is inert (comma follows it), the inner reference
loses its artifact letters, and the scan continues past the semicolon. -/
theorem ruleB1_second_ref {X : List Char} (hX1 : X ≠ []) (hX : ∀ c ∈ X, isTok c = true)
    {L : List Char} (hL : ∀ c ∈ L, isLow c = true) (v : List Char) :
    ruleB1 (pre ++ (X ++ ',' :: ' ' :: (pre ++ (X ++ ')' :: (L ++ ';' :: v))))) =
      pre ++ (X ++ ',' :: ' ' :: (pre ++ (X ++ ')' :: ';' :: ruleB1 v))) := by
  have step4 : ruleB1 (';' :: v) = ';' :: ruleB1 v :=
    ruleB1_cons_none (matchB1_none_head (by decide) v)
  have hinner : ruleB1 (pre ++ (X ++ ')' :: (L ++ ';' :: v))) =
      pre ++ (X ++ ')' :: ';' :: ruleB1 v) := by
    cases L with
    | nil =>
      simp only [List.nil_append]
      have hr : (';' :: v).takeWhile isLow = [] := by
        simp [List.takeWhile_cons, show isLow ';' = false from by decide]
      have h0 : matchB1 (pre ++ (X ++ ')' :: (';' :: v))) = none := matchB1_none_nolow hX hr
      have e1 : pre ++ (X ++ ')' :: (';' :: v)) =
          'v' :: (preTl ++ ((X ++ [')']) ++ (';' :: v))) := by
        rw [pre_eq]; simp
      rw [e1] at h0
      have step1 : ruleB1 ('v' :: (preTl ++ ((X ++ [')']) ++ (';' :: v)))) =
          'v' :: ruleB1 (preTl ++ ((X ++ [')']) ++ (';' :: v))) := ruleB1_cons_none h0
      have step2 : ruleB1 (preTl ++ ((X ++ [')']) ++ (';' :: v))) =
          preTl ++ ruleB1 ((X ++ [')']) ++ (';' :: v)) :=
        walk_nov (fun c t' hc => matchB1_none_head hc t') preTl (by decide) _
      have step3 : ruleB1 ((X ++ [')']) ++ (';' :: v)) = (X ++ [')']) ++ ruleB1 (';' :: v) :=
        walk_tokdel hX
          (fun tk' htk' r => matchB1_none_tok htk' (by decide) (by decide) (by decide) (by decide) r) _
      rw [e1, step1, step2, step3, step4, pre_eq]
      simp
    | cons c L' =>
      simp only [List.cons_append]
      have hc : isLow c = true := hL c (by simp)
      have hdrop : (c :: (L' ++ ';' :: v)).dropWhile isLow = ';' :: v := by
        have h := (takeWhile_append_eq isLow (c :: L') hL ';' v (by decide)).2
        simpa using h
      have hspan := matchB1_span hX1 hX hc (L' ++ ';' :: v)
      have e1 : pre ++ (X ++ ')' :: c :: (L' ++ ';' :: v)) =
          'v' :: (preTl ++ (X ++ ')' :: c :: (L' ++ ';' :: v))) := by
        rw [pre_eq]; simp
      rw [e1] at hspan
      rw [e1, ruleB1_cons_some hspan, hdrop, step4]
      unfold refTok
      simp
  have h0 : matchB1 (pre ++ (X ++ ',' :: (' ' :: (pre ++ (X ++ ')' :: (L ++ ';' :: v)))))) =
      none := matchB1_none_comma hX _
  have e1 : pre ++ (X ++ ',' :: ' ' :: (pre ++ (X ++ ')' :: (L ++ ';' :: v)))) =
      'v' :: (preTl ++ ((X ++ [',']) ++ ([' '] ++ (pre ++ (X ++ ')' :: (L ++ ';' :: v)))))) := by
    rw [pre_eq]; simp
  rw [e1] at h0
  have step1 := ruleB1_cons_none h0
  have step2 : ruleB1 (preTl ++
        ((X ++ [',']) ++ ([' '] ++ (pre ++ (X ++ ')' :: (L ++ ';' :: v)))))) =
      preTl ++ ruleB1 ((X ++ [',']) ++ ([' '] ++ (pre ++ (X ++ ')' :: (L ++ ';' :: v))))) :=
    walk_nov (fun c t' hc => matchB1_none_head hc t') preTl (by decide) _
  have step3 : ruleB1 ((X ++ [',']) ++ ([' '] ++ (pre ++ (X ++ ')' :: (L ++ ';' :: v))))) =
      (X ++ [',']) ++ ruleB1 ([' '] ++ (pre ++ (X ++ ')' :: (L ++ ';' :: v)))) :=
    walk_tokdel hX
      (fun tk' htk' r => matchB1_none_tok htk' (by decide) (by decide) (by decide) (by decide) r) _
  have step5 : ruleB1 ([' '] ++ (pre ++ (X ++ ')' :: (L ++ ';' :: v)))) =
      [' '] ++ ruleB1 (pre ++ (X ++ ')' :: (L ++ ';' :: v))) :=
    walk_nov (fun c t' hc => matchB1_none_head hc t') [' '] (by decide) _
  rw [e1, step1, step2, step3, step5, hinner, pre_eq]
  simp

/-! ## The claims -/

/-- Claim C1 (amended) — wherever the input contains the self-referential
fallback shape `var(--spacing-X, var(--spacing-X))`, Rule Set A's output
still contains the clean reference `var(--spacing-X)`. The original
claim's second half (the fallback form is gone from the output) is false:
see the counterexample. -/
theorem claimC1 {s X u v : List Char} (hX1 : X ≠ []) (hX : ∀ c ∈ X, isTok c = true)
    (hs : s = u ++ (pre ++ (X ++ ',' :: ' ' :: (pre ++ (X ++ ')' :: ')' :: v))))) :
    ∃ u' v', ruleA s = u' ++ (pre ++ (X ++ ')' :: v')) := by
  have hs' : s = (u ++ (pre ++ (X ++ [',', ' ']))) ++ (pre ++ (X ++ ')' :: (')' :: v))) := by
    rw [hs]; simp
  exact ruleA_keeps_ref hX1 hX hs'

/-- Claim C1 witness — the amended claim at the plain fallback input
`var(--spacing-x, var(--spacing-x))` with token `x`. -/
theorem claimC1_witness :
    ∃ u' v', ruleA fallbackX = u' ++ (pre ++ (['x'] ++ ')' :: v')) :=
  @claimC1 fallbackX ['x'] [] [] (by decide) (by decide) (by decide)

/-- Claim C1 counterexample — the nested input
`var(--spacing-x, var(--spacing-x, var(--spacing-x))` contains the
fallback form `var(--spacing-x, var(--spacing-x))`, yet Rule Set A's
output (which is exactly that fallback form) still contains it. -/
theorem claimC1_cex :
    occursIn fallbackX exC1 = true ∧
    ruleA exC1 = fallbackX ∧
    occursIn fallbackX (ruleA exC1) = true := by decide

/-- Claim C2 (amended) — neither engine is idempotent outright: a second
application is a no-op exactly when no pattern still matches the
once-fixed text. For Rule Set A that is rule A's own pattern; for Rule
Set B's chain, patterns 1 and 2 (pattern 3 never matches the chain's
output). The original unconditional idempotence is false: see the
counterexample. -/
theorem claimC2 (s : List Char) :
    (ruleA (ruleA s) = ruleA s ↔ anyMatch matchA (ruleA s) = false) ∧
    (fixSpacingSyntax (fixSpacingSyntax s) = fixSpacingSyntax s ↔
      anyMatch matchB1 (fixSpacingSyntax s) = false ∧
      anyMatch matchB2 (fixSpacingSyntax s) = false) := by
  have hstA : ∀ (t : List Char) (p : List Char × List Char),
      matchA t = some p → (refTok p.1).length + p.2.length < t.length :=
    fun _ _ h => matchA_strict h
  have hstB1 : ∀ (t : List Char) (p : List Char × List Char),
      matchB1 t = some p → (refTok p.1).length + p.2.length < t.length :=
    fun _ _ h => matchB1_strict h
  have hstB2 : ∀ (t : List Char) (p : List Char × List Char),
      matchB2 t = some p → (refTok p.1 ++ [';']).length + p.2.length < t.length :=
    fun _ _ h => matchB2_strict h
  refine ⟨runSub_eq_self_iff hstA (ruleA s), ?_, ?_⟩
  · intro h
    rw [chainB_collapse (fixSpacingSyntax s)] at h
    have hle2 : (ruleB2 (ruleB1 (fixSpacingSyntax s))).length ≤
        (ruleB1 (fixSpacingSyntax s)).length :=
      runSub_length_le hstB2 (ruleB1 (fixSpacingSyntax s)).length _ (le_refl _)
    have hB1 : anyMatch matchB1 (fixSpacingSyntax s) = false := by
      by_contra hc
      have hany : anyMatch matchB1 (fixSpacingSyntax s) = true := by
        cases hv : anyMatch matchB1 (fixSpacingSyntax s)
        · exact absurd hv hc
        · rfl
      have hlt : (ruleB1 (fixSpacingSyntax s)).length < (fixSpacingSyntax s).length :=
        runSub_length_lt hstB1 (fixSpacingSyntax s).length _ (le_refl _) hany
      have hlen : (ruleB2 (ruleB1 (fixSpacingSyntax s))).length =
          (fixSpacingSyntax s).length := by rw [h]
      omega
    have e1 : ruleB1 (fixSpacingSyntax s) = fixSpacingSyntax s :=
      (runSub_eq_self_iff hstB1 (fixSpacingSyntax s)).mpr hB1
    rw [e1] at h
    exact ⟨hB1, (runSub_eq_self_iff hstB2 (fixSpacingSyntax s)).mp h⟩
  · rintro ⟨h1, h2⟩
    have e1 : ruleB1 (fixSpacingSyntax s) = fixSpacingSyntax s :=
      (runSub_eq_self_iff hstB1 (fixSpacingSyntax s)).mpr h1
    have e2 : ruleB2 (fixSpacingSyntax s) = fixSpacingSyntax s :=
      (runSub_eq_self_iff hstB2 (fixSpacingSyntax s)).mpr h2
    rw [chainB_collapse (fixSpacingSyntax s), e1, e2]

/-- Claim C2 counterexample — Rule Set A is not idempotent on the nested
fallback `var(--spacing-y, var(--spacing-y, var(--spacing-y))`, and the
Rule Set B chain is not idempotent on
`var(--spacing-x, var(--spacing-x, var(--spacing-x);`. -/
theorem claimC2_cex :
    ruleA (ruleA exC2A) ≠ ruleA exC2A ∧
    fixSpacingSyntax (fixSpacingSyntax exC2B) ≠ fixSpacingSyntax exC2B := by decide

/-- Claim C3 (amended) — on
`padding: var(--spacing-a)padding var(--spacing-b)padding;` rule 3
produces `padding: var(--spacing-a) var(--spacing-b);`: the artifact
letters are consumed but the final semicolon lies beyond the matched
span and is preserved. -/
theorem claimC3 : ruleB3 exC3 = outC3 := by decide

/-- Claim C3 counterexample — the spec's stated output
`padding: var(--spacing-a) var(--spacing-b)` (no trailing semicolon) is
not what rule 3 produces on that input. -/
theorem claimC3_cex : ruleB3 exC3 ≠ specC3 ∧ ruleB3 exC3 = outC3 := by decide

/-- Claim C4 (amended) — when the text begins with `var(--spacing-X)`
immediately followed by a lowercase letter, rule 1 rewrites it to
`var(--spacing-X)` with the entire following lowercase run removed. The
original anywhere-in-the-text claim is false: see the counterexample. -/
theorem claimC4 {X : List Char} (hX1 : X ≠ []) (hX : ∀ c ∈ X, isTok c = true)
    {c : Char} (hc : isLow c = true) (r : List Char) :
    ruleB1 (pre ++ (X ++ ')' :: c :: r)) =
      pre ++ (X ++ ')' :: ruleB1 ((c :: r).dropWhile isLow)) := by
  have hspan := matchB1_span hX1 hX hc r
  have e1 : pre ++ (X ++ ')' :: c :: r) = 'v' :: (preTl ++ (X ++ ')' :: c :: r)) := by
    rw [pre_eq]; simp
  rw [e1] at hspan
  rw [e1, ruleB1_cons_some hspan]
  unfold refTok
  simp

/-- Claim C4 witness — the amended claim at `var(--spacing-a)x`. -/
theorem claimC4_witness :
    ruleB1 (pre ++ (['a'] ++ ')' :: 'x' :: [])) =
      pre ++ (['a'] ++ ')' :: ruleB1 (('x' :: ([] : List Char)).dropWhile isLow)) :=
  claimC4 (by decide) (by decide) (by decide) []

/-- Claim C4 counterexample — `var(--spacing-a)var(--spacing-b)x`
contains `var(--spacing-b)x`, but rule 1's output
`var(--spacing-a)(--spacing-b)x` no longer contains `var(--spacing-b)`
at all: an earlier overlapping match consumed the `var`. -/
theorem claimC4_cex :
    occursIn refWordC4 exC4 = true ∧
    ruleB1 exC4 = outC4 ∧
    occursIn refC4 (ruleB1 exC4) = false := by decide

/-- Claim C5 (amended) — when the text begins with the occurrence
`var(--spacing-X, var(--spacing-X)L;` (identical tokens, L zero or more
lowercase letters), the full chain rewrites it to `var(--spacing-X);`
followed by the chain's effect on the remainder. The original
anywhere-in-the-text claim is false: see the counterexample. -/
theorem claimC5 {X : List Char} (hX1 : X ≠ []) (hX : ∀ c ∈ X, isTok c = true)
    {L : List Char} (hL : ∀ c ∈ L, isLow c = true) (v : List Char) :
    fixSpacingSyntax (pre ++ (X ++ ',' :: ' ' :: (pre ++ (X ++ ')' :: (L ++ ';' :: v))))) =
      (refTok X ++ [';']) ++ ruleB2 (ruleB1 v) := by
  rw [chainB_collapse, ruleB1_second_ref hX1 hX hL v]
  have h3 : ∀ c ∈ ([' '] : List Char), isSpc c = true := by decide
  have h4 : ∀ c ∈ ([] : List Char), isLow c = true := by simp
  have hspan := matchB2_span hX1 hX h3 h4 (ruleB1 v)
  have e2 : pre ++ (X ++ ',' ::
        ([' '] ++ (pre ++ (X ++ ')' :: (([] : List Char) ++ ';' :: ruleB1 v))))) =
      'v' :: (preTl ++ (X ++ ',' :: ' ' :: (pre ++ (X ++ ')' :: ';' :: ruleB1 v)))) := by
    rw [pre_eq]; simp
  rw [e2] at hspan
  have e3 : pre ++ (X ++ ',' :: ' ' :: (pre ++ (X ++ ')' :: ';' :: ruleB1 v))) =
      'v' :: (preTl ++ (X ++ ',' :: ' ' :: (pre ++ (X ++ ')' :: ';' :: ruleB1 v)))) := by
    rw [pre_eq]; simp
  rw [e3, ruleB2_cons_some hspan]

/-- Claim C5 witness — the amended claim at
`var(--spacing-x, var(--spacing-x)q;` with empty remainder. -/
theorem claimC5_witness :
    fixSpacingSyntax
        (pre ++ (['x'] ++ ',' :: ' ' :: (pre ++ (['x'] ++ ')' :: (['q'] ++ ';' :: []))))) =
      (refTok ['x'] ++ [';']) ++ ruleB2 (ruleB1 []) :=
  @claimC5 ['x'] (by decide) (by decide) ['q'] (by decide) []

/-- Claim C5 counterexample — `var(--spacing-a)var(--spacing-b, var(--spacing-b);`
contains the occurrence `var(--spacing-b, var(--spacing-b);`, but the
chain does not collapse it in place: rule 1 first matches the preceding
reference together with the occurrence's own `var`, so the output is
`var(--spacing-a)(--spacing-b, var(--spacing-b);`, not the collapsed
`var(--spacing-a)var(--spacing-b);`. -/
theorem claimC5_cex :
    occursIn fallC5 exC5 = true ∧
    fixSpacingSyntax exC5 = outC5 ∧
    fixSpacingSyntax exC5 ≠ expC5 ∧
    occursIn fallC5 (fixSpacingSyntax exC5) = false := by decide

/-- Claim C6 — a fallback-shaped reference whose two tokens differ
(`var(--spacing-X, var(--spacing-Y)` with X ≠ Y) is matched neither by
Rule Set A nor by Rule Set B's pattern 2: the occurrence survives both
substitutions verbatim, because the back-reference demands exact token
equality. -/
theorem claimC6 {s X Y u v : List Char} (hX1 : X ≠ []) (hX : ∀ c ∈ X, isTok c = true)
    (hY : ∀ c ∈ Y, isTok c = true) (hXY : X ≠ Y)
    (hs : s = u ++ (mixG X Y ++ v)) :
    (∃ u' v', ruleA s = u' ++ (mixG X Y ++ v')) ∧
    (∃ u' v', ruleB2 s = u' ++ (mixG X Y ++ v')) :=
  ⟨ruleA_keeps_mixG_fuel s.length s (le_refl _) X Y u v hX1 hX hY hXY hs,
   ruleB2_keeps_mixG_fuel s.length s (le_refl _) X Y u v hX1 hX hY hXY hs⟩

/-- Claim C6 witness — the claim at the bare occurrence with tokens `a`
and `b`. -/
theorem claimC6_witness :
    (∃ u' v', ruleA (mixG ['a'] ['b']) = u' ++ (mixG ['a'] ['b'] ++ v')) ∧
    (∃ u' v', ruleB2 (mixG ['a'] ['b']) = u' ++ (mixG ['a'] ['b'] ++ v')) :=
  @claimC6 (mixG ['a'] ['b']) ['a'] ['b'] [] [] (by decide) (by decide) (by decide)
    (by decide) (by simp)

/-- Claim C7 — a missing enumerated path yields a not-found report line,
never a fixed line; the run still emits one report per enumerated path
(it does not stop), and the final summary is the fixed count (the number
of fixed reports) over the total number of enumerated paths, missing
paths included in the denominator. -/
theorem claimC7 (fix : List Char → List Char) (paths : List String)
    (fs : String → Option (List Char)) (p : String)
    (hmem : p ∈ paths) (hnone : fs p = none) :
    Report.notFound p ∈ (runScript fix paths fs).reports ∧
    Report.fixed p ∉ (runScript fix paths fs).reports ∧
    (runScript fix paths fs).reports.length = paths.length ∧
    summaryOf fix paths fs =
      ((runScript fix paths fs).reports.countP Report.isFixedR, paths.length) :=
  ⟨runScript_notFound_mem fix paths fs p hmem hnone,
   runScript_no_fixed fix paths fs p hnone,
   runScript_reports_length fix paths fs,
   by unfold summaryOf; rw [runScript_count fix paths fs]⟩

/-- Claim C7 witness — the fallback script's own file list over an empty
file system: the first enumerated path is missing. -/
theorem claimC7_witness :
    Report.notFound "src/components/atoms/ConsoleInput/ConsoleInput.css" ∈
      (runScript fixSpacingFallbacks problem_files (fun _ => none)).reports ∧
    Report.fixed "src/components/atoms/ConsoleInput/ConsoleInput.css" ∉
      (runScript fixSpacingFallbacks problem_files (fun _ => none)).reports ∧
    (runScript fixSpacingFallbacks problem_files (fun _ => none)).reports.length =
      problem_files.length ∧
    summaryOf fixSpacingFallbacks problem_files (fun _ => none) =
      ((runScript fixSpacingFallbacks problem_files (fun _ => none)).reports.countP
          Report.isFixedR,
        problem_files.length) :=
  claimC7 fixSpacingFallbacks problem_files (fun _ => none)
    "src/components/atoms/ConsoleInput/ConsoleInput.css" (by decide) rfl

/-- Claim C8 — per processed file: exactly when the substituted text
differs from the original, the file system is updated by full overwrite
at that path and the fixed counter is incremented by one with a fixed
report; when the text is unchanged the file system is returned
untouched, the counter increment is zero, and the file reports as
needing no changes. -/
theorem claimC8 (fix : List Char → List Char) (fs : String → Option (List Char))
    (p : String) (c : List Char) (h : fs p = some c) :
    (fix c ≠ c →
      processOne fix fs p =
        ((fun q => if q = p then some (fix c) else fs q), Report.fixed p, 1)) ∧
    (fix c = c → processOne fix fs p = (fs, Report.noChanges p, 0)) :=
  ⟨fun hch => processOne_changed h hch, fun hch => processOne_same h hch⟩

/-- Claim C8 witness — the syntax fixer over a one-file file system with
empty content. -/
theorem claimC8_witness :
    (fixSpacingSyntax [] ≠ [] →
      processOne fixSpacingSyntax (fun _ => some []) "style.css" =
        ((fun q => if q = "style.css" then some (fixSpacingSyntax []) else some []),
          Report.fixed "style.css", 1)) ∧
    (fixSpacingSyntax [] = [] →
      processOne fixSpacingSyntax (fun _ => some []) "style.css" =
        ((fun _ => some []), Report.noChanges "style.css", 0)) :=
  claimC8 fixSpacingSyntax (fun _ => some []) "style.css" [] rfl

/-- Claim C9 — rule 3 is unreachable in the chain: rule 1's output never
contains a clean reference immediately followed by a lowercase letter,
rule 2 preserves that absence, so pattern 3 matches nowhere in what
reaches it and the full chain equals rules 1 and 2 alone. -/
theorem claimC9 (s : List Char) :
    ¬ hasBad (ruleB1 s) ∧
    anyMatch matchB3 (ruleB2 (ruleB1 s)) = false ∧
    fixSpacingSyntax s = ruleB2 (ruleB1 s) :=
  ⟨ruleB1_noBad s,
   noBad_anyB3 _ (fun hb => ruleB1_noBad s (ruleB2_keepsBad hb)),
   chainB_collapse s⟩

/-- Claim C10 — on `var(--spacing-x)var(--spacing-y)` rule 1 treats the
`var` of the second reference as a trailing artifact: the output is
`var(--spacing-x)(--spacing-y)`, which no longer contains a
`var(--spacing-y)` reference. -/
theorem claimC10 :
    occursIn refC10 exC10 = true ∧
    ruleB1 exC10 = outC10 ∧
    occursIn refC10 (ruleB1 exC10) = false := by decide

end SpacingFix
